import Mathlib

/-!
Verification development for the mediallm repository.

Shallow embedding of the parts of the code base that the checked claims
talk about:

* `processing/command_executor.py` — `CommandExecutor._is_command_secure`,
  `_DANGEROUS_PATTERNS`, `_FILTER_FLAGS`, `_VALID_EXECUTABLES`,
  `check_overwrite_protection`, `detect_overwrites`, `extract_output_path`,
  `_execute_commands` (overwrite branch);
* `processing/command_retry.py` — `CommandRetryHandler.execute_with_retry`
  and its validation loop, modelled as a step function over an oracle
  environment with an explicit event trace;
* `core/json_repair.py` — `JSONRepair.extract_json_from_text` and
  `JSONRepair.repair_json_for_schema` over an embedded JSON value type;
* `analysis/ffprobe_analyzer.py` — the metadata-consumption core of
  `_ffprobe_duration`;
* `main.py` — the exception-to-exit-code dispatch of `main`.

Python strings are modelled as `String` or `List Char`; the regular
expressions of `_DANGEROUS_PATTERNS` are compiled by hand into structural
character-list matchers (each definition carries the original regex in its
doc comment).  The character classes of the Python regexes are modelled at
ASCII precision, which covers every argument the claims quantify over.
-/

/-! ### Character-level helpers (ASCII models of the Python regex classes) -/

/-- Model of the Python regex class `\w` (ASCII precision): letters, digits
and underscore. -/
def isWordChar (c : Char) : Bool :=
  c.isAlphanum || c = '_'

/-- Model of the Python regex class `\s` (ASCII precision): space, tab,
newline, carriage return, vertical tab, form feed. -/
def isSpaceChar (c : Char) : Bool :=
  c = ' ' || c = '\t' || c = '\n' || c = '\r' || c = '\x0b' || c = '\x0c'

/-- Model of the regex assertion `\b` at a position: the character before the
position (`prev`, `none` at the start of the string) and the character at the
position (head of `cs`, absent at the end) disagree on word-char-ness. -/
def wordBoundary (prev : Option Char) (cs : List Char) : Bool :=
  (match prev with
   | some c => isWordChar c
   | none => false) !=
  (match cs with
   | c :: _ => isWordChar c
   | [] => false)

/-- Model of a word boundary right after a consumed word character: the next
character, when present, is not a word character. -/
def boundaryAfterWord (cs : List Char) : Bool :=
  match cs with
  | [] => true
  | c :: _ => !(isWordChar c)

/-- Consume `\s*`: drop the maximal run of whitespace characters. -/
def dropSpaces : List Char → List Char
  | [] => []
  | c :: cs => if isSpaceChar c then dropSpaces cs else c :: cs

/-- Consume `\s+` followed by a non-whitespace continuation: requires at least
one whitespace character, then drops the maximal whitespace run.  (Every use
site in `_DANGEROUS_PATTERNS` continues with a non-whitespace literal, so the
maximal munch is the unique way the Python regex can match.) -/
def spacesThen1 : List Char → Option (List Char)
  | [] => none
  | c :: cs => if isSpaceChar c then some (dropSpaces cs) else none

/-- Consume a case-insensitive literal (the letters are given lowercased, as
in the `re.IGNORECASE`-compiled patterns), returning the remainder. -/
def eatCI : List Char → List Char → Option (List Char)
  | [], cs => some cs
  | _ :: _, [] => none
  | l :: ls, c :: cs => if c.toLower == l then eatCI ls cs else none

/-! ### The dangerous-pattern battery

Each definition below is the hand compilation of one compiled pattern of
`CommandExecutor._DANGEROUS_PATTERNS` (command_executor.py lines 34-52) into
a match-at-position function: given the previous character (for `\b`) and
the remaining characters, decide whether the pattern matches starting here.
-/

/-- Pattern `\brm\s+-rf?\b` with `re.IGNORECASE`. -/
def patRmRf (prev : Option Char) (cs : List Char) : Bool :=
  wordBoundary prev cs &&
  (match eatCI ['r', 'm'] cs with
   | none => false
   | some rest =>
     match spacesThen1 rest with
     | none => false
     | some rest2 =>
       match eatCI ['-', 'r'] rest2 with
       | none => false
       | some rest3 =>
         match rest3 with
         | c :: rest4 =>
           if c.toLower == 'f' then boundaryAfterWord rest4 else boundaryAfterWord rest3
         | [] => true)

/-- Pattern `\brm\s+` with `re.IGNORECASE`. -/
def patRm (prev : Option Char) (cs : List Char) : Bool :=
  wordBoundary prev cs &&
  (match eatCI ['r', 'm'] cs with
   | some rest => (spacesThen1 rest).isSome
   | none => false)

/-- Pattern `\bdel\s+/[sfq]\b` with `re.IGNORECASE`. -/
def patDelSwitch (prev : Option Char) (cs : List Char) : Bool :=
  wordBoundary prev cs &&
  (match eatCI ['d', 'e', 'l'] cs with
   | none => false
   | some rest =>
     match spacesThen1 rest with
     | none => false
     | some rest2 =>
       match rest2 with
       | '/' :: c :: rest3 =>
         (c.toLower == 's' || c.toLower == 'f' || c.toLower == 'q') && boundaryAfterWord rest3
       | _ => false)

/-- Pattern `\bdel\s+` with `re.IGNORECASE`. -/
def patDel (prev : Option Char) (cs : List Char) : Bool :=
  wordBoundary prev cs &&
  (match eatCI ['d', 'e', 'l'] cs with
   | some rest => (spacesThen1 rest).isSome
   | none => false)

/-- Pattern `\bformat\s+[a-z]:` with `re.IGNORECASE` (so the class also
matches upper-case ASCII letters). -/
def patFormatDrive (prev : Option Char) (cs : List Char) : Bool :=
  wordBoundary prev cs &&
  (match eatCI ['f', 'o', 'r', 'm', 'a', 't'] cs with
   | none => false
   | some rest =>
     match spacesThen1 rest with
     | some (c :: d :: _) => c.isAlpha && d == ':'
     | _ => false)

/-- Shared shape of the patterns `\bsystem\s*\(`, `\bexec\s*\(` and
`\beval\s*\(` with `re.IGNORECASE`: a word-bounded keyword, optional
whitespace, then an opening parenthesis. -/
def patCall (w : List Char) (prev : Option Char) (cs : List Char) : Bool :=
  wordBoundary prev cs &&
  (match eatCI w cs with
   | none => false
   | some rest =>
     match dropSpaces rest with
     | '(' :: _ => true
     | _ => false)

/-- A pattern consisting of a single character class. -/
def patCls (p : Char → Bool) (_prev : Option Char) (cs : List Char) : Bool :=
  match cs with
  | c :: _ => p c
  | [] => false

/-- The class of pattern 9, `[&|` followed by a backtick and `]`: ampersand,
pipe, backtick (backtick written as `\x60`). -/
def metaShellChar (c : Char) : Bool :=
  c == '&' || c == '|' || c == '\x60'

/-- Pattern `[&|` backtick `]`. -/
def patMetaChar : Option Char → List Char → Bool :=
  patCls metaShellChar

/-- A pattern consisting of two literal characters in a row. -/
def patPair (x y : Char) (_prev : Option Char) (cs : List Char) : Bool :=
  match cs with
  | a :: b :: _ => a == x && b == y
  | _ => false

/-- Pattern `\$\(`. -/
def patDollarParen : Option Char → List Char → Bool :=
  patPair '$' '('

/-- Pattern `\$\x7b` (a dollar sign followed by an opening curly brace). -/
def patDollarBrace : Option Char → List Char → Bool :=
  patPair '$' '\x7b'

/-- Pattern `>\s*[/\\]`. -/
def patRedirect (_prev : Option Char) (cs : List Char) : Bool :=
  match cs with
  | '>' :: rest =>
    (match dropSpaces rest with
     | c :: _ => c == '/' || c == '\\'
     | [] => false)
  | _ => false

/-- Shared shape of the patterns `\bsudo\b`, `\bchmod\b`, `\bchown\b`,
`\bmkfs\b` with `re.IGNORECASE`: a fully word-bounded keyword. -/
def patWordOnly (w : List Char) (prev : Option Char) (cs : List Char) : Bool :=
  wordBoundary prev cs &&
  (match eatCI w cs with
   | some rest => boundaryAfterWord rest
   | none => false)

/-- Pattern `\bdd\s+if=` with `re.IGNORECASE`. -/
def patDdIf (prev : Option Char) (cs : List Char) : Bool :=
  wordBoundary prev cs &&
  (match eatCI ['d', 'd'] cs with
   | none => false
   | some rest =>
     match spacesThen1 rest with
     | some rest2 => (eatCI ['i', 'f', '='] rest2).isSome
     | none => false)

/-- `CommandExecutor._DANGEROUS_PATTERNS` (command_executor.py lines 34-52),
in source order. -/
def DANGEROUS_PATTERNS : List (Option Char → List Char → Bool) :=
  [patRmRf, patRm, patDelSwitch, patDel, patFormatDrive,
   patCall ['s', 'y', 's', 't', 'e', 'm'],
   patCall ['e', 'x', 'e', 'c'],
   patCall ['e', 'v', 'a', 'l'],
   patMetaChar, patDollarParen, patDollarBrace, patRedirect,
   patWordOnly ['s', 'u', 'd', 'o'],
   patWordOnly ['c', 'h', 'm', 'o', 'd'],
   patWordOnly ['c', 'h', 'o', 'w', 'n'],
   patWordOnly ['m', 'k', 'f', 's'],
   patDdIf]

/-- Model of `re.Pattern.search`: does the pattern match at some position of
the string?  `prev` is the character before the current position. -/
def searchP (f : Option Char → List Char → Bool) : Option Char → List Char → Bool
  | prev, [] => f prev []
  | prev, c :: cs => f prev (c :: cs) || searchP f (some c) cs

/-- The dangerous-pattern scan of `_is_command_secure` (line 360):
`any(pattern.search(cmd_str) for pattern in self._DANGEROUS_PATTERNS)`. -/
def scansDangerous (cs : List Char) : Bool :=
  DANGEROUS_PATTERNS.any (fun f => searchP f none cs)

/-! ### `_is_command_secure` itself -/

/-- `CommandExecutor._VALID_EXECUTABLES` (line 54). -/
def VALID_EXECUTABLES : List String :=
  ["ffmpeg", "ffprobe"]

/-- `CommandExecutor._FILTER_FLAGS` (line 53). -/
def FILTER_FLAGS : List String :=
  ["-vf", "-af", "-filter_complex", "-filter:v", "-filter:a"]

/-- Model of Python `str.endswith`. -/
def pyEndsWith (s suffix : String) : Bool :=
  suffix.data.isSuffixOf s.data

/-- Model of Python `needle in s` for a one-character needle. -/
def hasChar (c : Char) : List Char → Bool
  | [] => false
  | a :: rest => a == c || hasChar c rest

/-- The argument-partition loop of `_is_command_secure` (lines 347-356): walk
the argument list; a filter flag that still has a following argument is
skipped together with that argument, everything else is kept. -/
def nonFilterArgs : List String → List String
  | [] => []
  | [a] => [a]
  | a :: b :: rest =>
    if FILTER_FLAGS.contains a then nonFilterArgs rest
    else a :: nonFilterArgs (b :: rest)

/-- Model of `" ".join(non_filter_args)` (line 359) as a character list. -/
def joinSpace : List String → List Char
  | [] => []
  | [a] => a.data
  | a :: b :: rest => a.data ++ ' ' :: joinSpace (b :: rest)

/-- `CommandExecutor._is_command_secure` (command_executor.py lines 334-368):
reject unless the first argument ends with an allow-listed executable name;
partition out filter-flag values; reject when a dangerous pattern matches the
space-joined non-filter arguments; reject when a non-filter argument contains
a semicolon. -/
def is_command_secure (command : List String) : Bool :=
  match command with
  | [] => false
  | c0 :: _ =>
    VALID_EXECUTABLES.any (fun exe => pyEndsWith c0 exe) &&
    (!(scansDangerous (joinSpace (nonFilterArgs command))) &&
     !((nonFilterArgs command).any (fun arg => hasChar ';' arg.data)))

/-- The shell metacharacters named by the spec for the rejection property:
a semicolon, ampersand, pipe, backtick, `$(` or a dollar-brace pair occurring
inside a single argument. -/
def hasPair (x y : Char) : List Char → Bool
  | a :: b :: rest => (a == x && b == y) || hasPair x y (b :: rest)
  | _ => false

/-- An argument contains a semicolon or one of the scanned shell
metacharacters. -/
def hasMetaOrSemi (arg : String) : Bool :=
  hasChar ';' arg.data || hasChar '&' arg.data || hasChar '|' arg.data ||
  hasChar '\x60' arg.data || hasPair '$' '(' arg.data || hasPair '$' '\x7b' arg.data

/-! ### Helper lemmas about the security validator -/

theorem hasChar_iff_mem (c : Char) (cs : List Char) : hasChar c cs = true ↔ c ∈ cs := by
  induction cs with
  | nil => simp [hasChar]
  | cons a rest ih =>
    simp only [hasChar, Bool.or_eq_true, beq_iff_eq, ih, List.mem_cons]
    constructor
    · rintro (h | h)
      · exact Or.inl h.symm
      · exact Or.inr h
    · rintro (h | h)
      · exact Or.inl h.symm
      · exact Or.inr h

theorem joinSpace_split (l : List String) (a : String) (h : a ∈ l) :
    ∃ s t, joinSpace l = s ++ a.data ++ t := by
  induction l with
  | nil => simp at h
  | cons x xs ih =>
    rcases List.mem_cons.mp h with rfl | hxs
    · cases xs with
      | nil => exact ⟨[], [], by simp [joinSpace]⟩
      | cons b t => exact ⟨[], ' ' :: joinSpace (b :: t), by simp [joinSpace]⟩
    · have hne : xs ≠ [] := List.ne_nil_of_mem hxs
      obtain ⟨b, t, rfl⟩ := List.exists_cons_of_ne_nil hne
      obtain ⟨s, u, hs⟩ := ih hxs
      refine ⟨x.data ++ ' ' :: s, u, ?_⟩
      simp [joinSpace, hs]

theorem hasChar_append (c : Char) (l m : List Char) :
    hasChar c (l ++ m) = (hasChar c l || hasChar c m) := by
  induction l with
  | nil => simp [hasChar]
  | cons a rest ih => simp [hasChar, ih, Bool.or_assoc]

theorem hasChar_joinSpace (c : Char) (l : List String) (a : String)
    (ha : a ∈ l) (hc : hasChar c a.data = true) : hasChar c (joinSpace l) = true := by
  obtain ⟨s, t, hs⟩ := joinSpace_split l a ha
  rw [hs, hasChar_append, hasChar_append, hc]
  simp

theorem hasPair_cons (x y c : Char) (m : List Char) (h : hasPair x y m = true) :
    hasPair x y (c :: m) = true := by
  cases m with
  | nil => simp [hasPair] at h
  | cons d rest => simp [hasPair, h]

theorem hasPair_append_left (x y : Char) (s l : List Char) (h : hasPair x y l = true) :
    hasPair x y (s ++ l) = true := by
  induction s with
  | nil => simpa using h
  | cons c s' ih => exact hasPair_cons x y c _ ih

theorem hasPair_append_right (x y : Char) (l t : List Char) (h : hasPair x y l = true) :
    hasPair x y (l ++ t) = true := by
  induction l with
  | nil => simp [hasPair] at h
  | cons a l' ih =>
    cases l' with
    | nil => simp [hasPair] at h
    | cons b l'' =>
      rw [hasPair] at h
      rw [Bool.or_eq_true] at h
      rcases h with h1 | h2
      · show hasPair x y (a :: b :: (l'' ++ t)) = true
        simp [hasPair, h1]
      · have := ih h2
        exact hasPair_cons x y a _ this

theorem hasPair_joinSpace (x y : Char) (l : List String) (a : String)
    (ha : a ∈ l) (hp : hasPair x y a.data = true) : hasPair x y (joinSpace l) = true := by
  obtain ⟨s, t, hs⟩ := joinSpace_split l a ha
  rw [hs, List.append_assoc]
  exact hasPair_append_left x y s _ (hasPair_append_right x y _ t hp)

theorem searchP_cls (p : Char → Bool) (prev : Option Char) (cs : List Char)
    (h : cs.any p = true) : searchP (patCls p) prev cs = true := by
  induction cs generalizing prev with
  | nil => simp at h
  | cons c rest ih =>
    rw [List.any_cons, Bool.or_eq_true] at h
    rcases h with h1 | h2
    · simp [searchP, patCls, h1]
    · simp [searchP, ih (some c) h2]

theorem searchP_pair (x y : Char) (prev : Option Char) (cs : List Char)
    (h : hasPair x y cs = true) : searchP (patPair x y) prev cs = true := by
  induction cs generalizing prev with
  | nil => simp [hasPair] at h
  | cons a rest ih =>
    cases rest with
    | nil => simp [hasPair] at h
    | cons b rest' =>
      rw [hasPair, Bool.or_eq_true] at h
      rcases h with h1 | h2
      · simp [searchP, patPair, h1]
      · have hr := ih (some a) h2
        rw [searchP]
        simp [hr]

theorem scansDangerous_of_meta (cs : List Char) (h : cs.any metaShellChar = true) :
    scansDangerous cs = true := by
  have hs : searchP patMetaChar none cs = true := searchP_cls metaShellChar none cs h
  simp [scansDangerous, DANGEROUS_PATTERNS, hs]

theorem scansDangerous_of_dollarParen (cs : List Char) (h : hasPair '$' '(' cs = true) :
    scansDangerous cs = true := by
  have hs : searchP patDollarParen none cs = true := searchP_pair _ _ none cs h
  simp [scansDangerous, DANGEROUS_PATTERNS, hs]

theorem scansDangerous_of_dollarBrace (cs : List Char) (h : hasPair '$' '\x7b' cs = true) :
    scansDangerous cs = true := by
  have hs : searchP patDollarBrace none cs = true := searchP_pair _ _ none cs h
  simp [scansDangerous, DANGEROUS_PATTERNS, hs]

theorem secure_false_of_nonfilter_semi (cmd : List String) (arg : String)
    (hmem : arg ∈ nonFilterArgs cmd) (hsemi : hasChar ';' arg.data = true) :
    is_command_secure cmd = false := by
  cases cmd with
  | nil => simp [nonFilterArgs] at hmem
  | cons c0 rest =>
    have hz : (nonFilterArgs (c0 :: rest)).any (fun arg => hasChar ';' arg.data) = true :=
      List.any_eq_true.mpr ⟨arg, hmem, hsemi⟩
    simp [is_command_secure, hz]

theorem secure_false_of_nonfilter_meta (cmd : List String) (arg : String)
    (hmem : arg ∈ nonFilterArgs cmd) (hmeta : hasMetaOrSemi arg = true) :
    is_command_secure cmd = false := by
  rw [hasMetaOrSemi] at hmeta
  rw [Bool.or_eq_true] at hmeta
  rcases hmeta with h5 | hsemi'
  rotate_left
  · -- dollar-brace pair
    cases cmd with
    | nil => simp [nonFilterArgs] at hmem
    | cons c0 rest =>
      have := scansDangerous_of_dollarBrace _ (hasPair_joinSpace _ _ _ arg hmem hsemi')
      simp [is_command_secure, this]
  rw [Bool.or_eq_true] at h5
  rcases h5 with h4 | hparen
  rotate_left
  · cases cmd with
    | nil => simp [nonFilterArgs] at hmem
    | cons c0 rest =>
      have := scansDangerous_of_dollarParen _ (hasPair_joinSpace _ _ _ arg hmem hparen)
      simp [is_command_secure, this]
  rw [Bool.or_eq_true] at h4
  rcases h4 with h3 | htick
  rotate_left
  · cases cmd with
    | nil => simp [nonFilterArgs] at hmem
    | cons c0 rest =>
      have hany : arg.data.any metaShellChar = true := by
        have : '\x60' ∈ arg.data := (hasChar_iff_mem _ _).mp htick
        exact List.any_eq_true.mpr ⟨_, this, by simp [metaShellChar]⟩
      have hj : (joinSpace (nonFilterArgs (c0 :: rest))).any metaShellChar = true := by
        have : '\x60' ∈ joinSpace (nonFilterArgs (c0 :: rest)) :=
          (hasChar_iff_mem _ _).mp (hasChar_joinSpace _ _ _ hmem htick)
        exact List.any_eq_true.mpr ⟨_, this, by simp [metaShellChar]⟩
      have := scansDangerous_of_meta _ hj
      simp [is_command_secure, this]
  rw [Bool.or_eq_true] at h3
  rcases h3 with h2 | hpipe
  rotate_left
  · cases cmd with
    | nil => simp [nonFilterArgs] at hmem
    | cons c0 rest =>
      have hj : (joinSpace (nonFilterArgs (c0 :: rest))).any metaShellChar = true := by
        have : '|' ∈ joinSpace (nonFilterArgs (c0 :: rest)) :=
          (hasChar_iff_mem _ _).mp (hasChar_joinSpace _ _ _ hmem hpipe)
        exact List.any_eq_true.mpr ⟨_, this, by simp [metaShellChar]⟩
      have := scansDangerous_of_meta _ hj
      simp [is_command_secure, this]
  rw [Bool.or_eq_true] at h2
  rcases h2 with hsemi | hamp
  rotate_left
  · cases cmd with
    | nil => simp [nonFilterArgs] at hmem
    | cons c0 rest =>
      have hj : (joinSpace (nonFilterArgs (c0 :: rest))).any metaShellChar = true := by
        have : '&' ∈ joinSpace (nonFilterArgs (c0 :: rest)) :=
          (hasChar_iff_mem _ _).mp (hasChar_joinSpace _ _ _ hmem hamp)
        exact List.any_eq_true.mpr ⟨_, this, by simp [metaShellChar]⟩
      have := scansDangerous_of_meta _ hj
      simp [is_command_secure, this]
  · exact secure_false_of_nonfilter_semi cmd arg hmem hsemi

/-! ### Claim C1 -/

/-- C1: `is_command_secure` returns `false` for every argument list whose
first element does not end with `ffmpeg` or `ffprobe` (including the empty
list); it returns `false` for every list containing, in a non-exempted
argument, a semicolon or a shell metacharacter (ampersand, pipe, backtick,
dollar-paren, dollar-brace); and it returns `true` for the baseline command
`ffmpeg -i input.mp4 -c:v libx264 output.mp4`. -/
theorem c1_is_command_secure_contract :
    (is_command_secure [] = false) ∧
    (∀ (c0 : String) (rest : List String),
      pyEndsWith c0 "ffmpeg" = false → pyEndsWith c0 "ffprobe" = false →
      is_command_secure (c0 :: rest) = false) ∧
    (∀ (cmd : List String) (arg : String), arg ∈ nonFilterArgs cmd →
      hasMetaOrSemi arg = true → is_command_secure cmd = false) ∧
    (is_command_secure ["ffmpeg", "-i", "input.mp4", "-c:v", "libx264", "output.mp4"] = true) := by
  refine ⟨rfl, ?_, ?_, by decide⟩
  · intro c0 rest h1 h2
    simp [is_command_secure, VALID_EXECUTABLES, h1, h2]
  · intro cmd arg hmem hmeta
    exact secure_false_of_nonfilter_meta cmd arg hmem hmeta

/-- Witness for C1: the hypothesis-bearing conjuncts applied at concrete
inputs. -/
theorem c1_is_command_secure_contract_witness :
    is_command_secure ["bash", "-c", "echo hi"] = false ∧
    is_command_secure ["ffmpeg", "-i", "a&b.mp4", "out.mp4"] = false :=
  ⟨c1_is_command_secure_contract.2.1 "bash" ["-c", "echo hi"] (by decide) (by decide),
   c1_is_command_secure_contract.2.2.1 ["ffmpeg", "-i", "a&b.mp4", "out.mp4"] "a&b.mp4"
     (by decide) (by decide)⟩

/-! ### Claim C2 -/

/-- C2: the dangerous patterns use word-boundary matching, so filenames that
merely embed a dangerous token inside a longer word are accepted: `arm.mp4`
(contains `rm`), `formatting.mp4` and `reformat.mp4` (contain `format`),
`delete.mp4` (contains `del`), `systemd.mp4` (contains `system`). -/
theorem c2_word_boundary_no_false_positive :
    is_command_secure ["ffmpeg", "-i", "arm.mp4", "out.mp4"] = true ∧
    is_command_secure ["ffmpeg", "-i", "formatting.mp4", "out.mp4"] = true ∧
    is_command_secure ["ffmpeg", "-i", "reformat.mp4", "out.mp4"] = true ∧
    is_command_secure ["ffmpeg", "-i", "delete.mp4", "out.mp4"] = true ∧
    is_command_secure ["ffmpeg", "-i", "systemd.mp4", "out.mp4"] = true := by
  decide

/-! ### Claim C3 -/

/-- C3: the value following a filter flag is exempted from both the
dangerous-pattern scan and the semicolon check.  Conjuncts: (1) a semicolon
in any non-exempted argument always causes rejection; (2) a filter flag and
its value are dropped before any scanning happens, so the verdict never
depends on the filter value; (3) the verdict is a function of the first
argument and the non-filter arguments only; (4) a command whose only
semicolons sit in a `-filter_complex` value is accepted; (5) the same
command with the semicolon-bearing argument in a non-filter position is
rejected. -/
theorem c3_filter_value_exemption :
    (∀ (cmd : List String) (arg : String), arg ∈ nonFilterArgs cmd →
      hasChar ';' arg.data = true → is_command_secure cmd = false) ∧
    (∀ (flag v : String) (rest : List String), flag ∈ FILTER_FLAGS →
      nonFilterArgs (flag :: v :: rest) = nonFilterArgs rest) ∧
    (∀ (cmd1 cmd2 : List String), cmd1.head? = cmd2.head? →
      nonFilterArgs cmd1 = nonFilterArgs cmd2 →
      is_command_secure cmd1 = is_command_secure cmd2) ∧
    (is_command_secure ["ffmpeg", "-i", "in.mp4", "-filter_complex",
      "[0:v]split[a][b];[a]scale=320:-1[c]", "out.mp4"] = true) ∧
    (is_command_secure ["ffmpeg", "-i", "in.mp4", "a;b", "out.mp4"] = false) := by
  refine ⟨?_, ?_, ?_, by decide, by decide⟩
  · intro cmd arg hmem hsemi
    exact secure_false_of_nonfilter_semi cmd arg hmem hsemi
  · intro flag v rest hflag
    have hc : FILTER_FLAGS.contains flag = true := List.elem_eq_true_of_mem hflag
    simp only [nonFilterArgs, hc, if_true]
  · intro cmd1 cmd2 hh hn
    cases cmd1 with
    | nil =>
      cases cmd2 with
      | nil => rfl
      | cons b bs => simp at hh
    | cons a as =>
      cases cmd2 with
      | nil => simp at hh
      | cons b bs =>
        have hab : a = b := by simpa using hh
        subst hab
        simp only [is_command_secure]
        rw [hn]

/-- Witness for C3: the hypothesis-bearing conjuncts applied at concrete
inputs. -/
theorem c3_filter_value_exemption_witness :
    is_command_secure ["ffmpeg", "x;y"] = false ∧
    nonFilterArgs ["-vf", "a;b", "out.mp4"] = nonFilterArgs ["out.mp4"] ∧
    is_command_secure ["ffmpeg", "ok.mp4"] = is_command_secure ["ffmpeg", "ok.mp4"] :=
  ⟨c3_filter_value_exemption.1 ["ffmpeg", "x;y"] "x;y" (by decide) (by decide),
   c3_filter_value_exemption.2.1 "-vf" "a;b" ["out.mp4"] (by decide),
   c3_filter_value_exemption.2.2.1 ["ffmpeg", "ok.mp4"] ["ffmpeg", "ok.mp4"] rfl rfl⟩

/-! ### The retry handler (`command_retry.py`)

`CommandRetryHandler.execute_with_retry` (lines 119-182) is modelled as a
structural recursion over the attempt list `range(1, MAX_RETRY_ATTEMPTS+1)`.
The effectful collaborators — `validate_ffmpeg_command` (a subprocess
dry-run), `_regenerate_commands` (an LLM round trip) and the injected
`executor_func` — are modelled as oracle functions of the attempt number
gathered in a `RetryEnv`.  The model additionally records an event trace:
one event per validation call, per regeneration call and per executor
invocation, so that temporal claims can be stated about a run. -/

/-- `MAX_RETRY_ATTEMPTS` (command_retry.py line 30). -/
def MAX_RETRY_ATTEMPTS : Nat := 3

/-- Outcome of one call of the injected `executor_func`: a return value, or
an `ExecError` carrying a message. -/
inductive ExecOutcome where
  | ok (code : Int)
  | err (msg : String)
deriving DecidableEq

/-- Oracle environment: the results of the effectful collaborators of
`execute_with_retry`, as functions of the attempt number. -/
structure RetryEnv where
  validate : Nat → List String → Bool × String
  regenerate : Nat → String → Option (List (List String))
  runExec : Nat → List (List String) → ExecOutcome

/-- One observable event of a run of `execute_with_retry`. -/
inductive REvent where
  | validated (attempt : Nat) (cmd : List String) (ok : Bool)
  | regenerated (attempt : Nat)
  | executed (attempt : Nat) (cmds : List (List String))
deriving DecidableEq

/-- Result of `execute_with_retry`: a returned `(exit_code, commands)` pair,
or a propagated `ExecError`. -/
inductive RetryResult where
  | ret (code : Int) (cmds : List (List String))
  | raised (msg : String)
deriving DecidableEq

/-- The validation loop of a non-final attempt (command_retry.py lines
137-153): validate commands in order, stopping at the first failure (whose
error message triggers regeneration via `break`). -/
def findInvalid (env : RetryEnv) (attempt : Nat) :
    List (List String) → List REvent × Option String
  | [] => ([], none)
  | c :: rest =>
    if (env.validate attempt c).1 then
      match findInvalid env attempt rest with
      | (evs, inv) => (REvent.validated attempt c true :: evs, inv)
    else ([REvent.validated attempt c false], some (env.validate attempt c).2)

/-- The validation loop of the final attempt: a failure only logs a warning
(the regeneration block is guarded by `attempt < MAX_RETRY_ATTEMPTS`), no
`break` is executed, so every command is validated. -/
def scanAll (env : RetryEnv) (attempt : Nat) : List (List String) → List REvent
  | [] => []
  | c :: rest => REvent.validated attempt c (env.validate attempt c).1 :: scanAll env attempt rest

/-- The `for attempt in range(1, MAX_RETRY_ATTEMPTS + 1)` loop of
`execute_with_retry` (lines 134-182), as a recursion over the list of
remaining attempt numbers.  On a non-final attempt (`attempt <
MAX_RETRY_ATTEMPTS`): a validation failure regenerates (returning `(1,
commands)` — the original commands — when regeneration yields nothing);
otherwise the executor runs, a zero or non-zero exit returns, and an
`ExecError` regenerates (re-raising when regeneration yields nothing).  On
the final attempt the `for/else` clause runs the executor even when
validation failed, and an `ExecError` is re-raised.  The loop epilogue
`return 1, current_commands` is the base case. -/
def retryGo (env : RetryEnv) (orig : List (List String)) :
    List Nat → List (List String) → List REvent → RetryResult × List REvent
  | [], current, trace => (RetryResult.ret 1 current, trace)
  | attempt :: restAttempts, current, trace =>
    if attempt < MAX_RETRY_ATTEMPTS then
      match findInvalid env attempt current with
      | (evs, some msg) =>
        (match env.regenerate attempt msg with
         | none => (RetryResult.ret 1 orig, trace ++ evs ++ [REvent.regenerated attempt])
         | some newCmds =>
           retryGo env orig restAttempts newCmds (trace ++ evs ++ [REvent.regenerated attempt]))
      | (evs, none) =>
        (match env.runExec attempt current with
         | ExecOutcome.ok code =>
           (RetryResult.ret code current, trace ++ evs ++ [REvent.executed attempt current])
         | ExecOutcome.err msg =>
           match env.regenerate attempt msg with
           | none =>
             (RetryResult.raised msg,
              trace ++ evs ++ [REvent.executed attempt current, REvent.regenerated attempt])
           | some newCmds =>
             retryGo env orig restAttempts newCmds
               (trace ++ evs ++ [REvent.executed attempt current, REvent.regenerated attempt]))
    else
      (match env.runExec attempt current with
       | ExecOutcome.ok code =>
         (RetryResult.ret code current,
          trace ++ scanAll env attempt current ++ [REvent.executed attempt current])
       | ExecOutcome.err msg =>
         (RetryResult.raised msg,
          trace ++ scanAll env attempt current ++ [REvent.executed attempt current]))

/-- `CommandRetryHandler.execute_with_retry`: run the attempt loop over
`range(1, MAX_RETRY_ATTEMPTS + 1)` starting from the supplied plan. -/
def execute_with_retry (env : RetryEnv) (commands : List (List String)) :
    RetryResult × List REvent :=
  retryGo env commands (List.range' 1 MAX_RETRY_ATTEMPTS) commands []

/-! ### Helper lemmas about the retry model -/

/-- Number of executor invocations recorded in a trace. -/
def isExecEvent : REvent → Bool
  | REvent.executed _ _ => true
  | _ => false

/-- Count of executor invocations in a trace. -/
def countExec (tr : List REvent) : Nat :=
  (tr.filter isExecEvent).length

/-- The attempt number an event belongs to. -/
def evAttempt : REvent → Nat
  | REvent.validated a _ _ => a
  | REvent.regenerated a => a
  | REvent.executed a _ => a

theorem countExec_append (l m : List REvent) :
    countExec (l ++ m) = countExec l + countExec m := by
  simp [countExec, List.filter_append]

theorem findInvalid_none_valid (env : RetryEnv) (a : Nat) (l : List (List String))
    (evs : List REvent) (h : findInvalid env a l = (evs, none)) :
    ∀ c ∈ l, (env.validate a c).1 = true := by
  induction l generalizing evs with
  | nil => simp
  | cons c rest ih =>
    intro d hd
    by_cases hv : (env.validate a c).1 = true
    · rcases List.mem_cons.mp hd with rfl | hrest
      · exact hv
      · rw [findInvalid, if_pos hv] at h
        rcases hfi : findInvalid env a rest with ⟨evs', inv'⟩
        rw [hfi] at h
        cases h
        exact ih evs' hfi d hrest
    · rw [findInvalid, if_neg hv] at h
      cases h

theorem findInvalid_events (env : RetryEnv) (a : Nat) (l : List (List String)) :
    ∀ ev ∈ (findInvalid env a l).1, ∃ c b, ev = REvent.validated a c b := by
  induction l with
  | nil => simp [findInvalid]
  | cons c rest ih =>
    intro ev hev
    by_cases hv : (env.validate a c).1 = true
    · rw [findInvalid, if_pos hv] at hev
      rcases hfi : findInvalid env a rest with ⟨evs', inv'⟩
      rw [hfi] at hev
      simp only [List.mem_cons] at hev
      rcases hev with rfl | hev
      · exact ⟨c, true, rfl⟩
      · have := ih ev
        rw [hfi] at this
        exact this hev
    · rw [findInvalid, if_neg hv] at hev
      simp only [List.mem_singleton] at hev
      subst hev
      exact ⟨c, false, rfl⟩

theorem scanAll_events (env : RetryEnv) (a : Nat) (l : List (List String)) :
    ∀ ev ∈ scanAll env a l, ∃ c b, ev = REvent.validated a c b := by
  induction l with
  | nil => simp [scanAll]
  | cons c rest ih =>
    intro ev hev
    rw [scanAll] at hev
    simp only [List.mem_cons] at hev
    rcases hev with rfl | hev
    · exact ⟨c, (env.validate a c).1, rfl⟩
    · exact ih ev hev

theorem findInvalid_countExec (env : RetryEnv) (a : Nat) (l : List (List String)) :
    countExec (findInvalid env a l).1 = 0 := by
  have h := findInvalid_events env a l
  simp only [countExec, List.length_eq_zero]
  rw [List.filter_eq_nil_iff]
  intro ev hev
  obtain ⟨c, b, rfl⟩ := h ev hev
  simp [isExecEvent]

theorem scanAll_countExec (env : RetryEnv) (a : Nat) (l : List (List String)) :
    countExec (scanAll env a l) = 0 := by
  have h := scanAll_events env a l
  simp only [countExec, List.length_eq_zero]
  rw [List.filter_eq_nil_iff]
  intro ev hev
  obtain ⟨c, b, rfl⟩ := h ev hev
  simp [isExecEvent]

theorem retryGo_exec_validated (env : RetryEnv) (orig : List (List String)) :
    ∀ (atts : List Nat) (current : List (List String)) (trace : List REvent),
      (∀ a cs, REvent.executed a cs ∈ trace → a < MAX_RETRY_ATTEMPTS →
        ∀ c ∈ cs, (env.validate a c).1 = true) →
      ∀ a cs, REvent.executed a cs ∈ (retryGo env orig atts current trace).2 →
        a < MAX_RETRY_ATTEMPTS → ∀ c ∈ cs, (env.validate a c).1 = true := by
  intro atts
  induction atts with
  | nil =>
    intro current trace hT a cs hmem hlt
    rw [retryGo] at hmem
    exact hT a cs hmem hlt
  | cons attempt restA ih =>
    intro current trace hT a cs hmem hlt
    by_cases hcase : attempt < MAX_RETRY_ATTEMPTS
    · rcases hfi : findInvalid env attempt current with ⟨evs, inv⟩
      have hevs := findInvalid_events env attempt current
      rw [hfi] at hevs
      cases inv with
      | some msg =>
        cases hr : env.regenerate attempt msg with
        | none =>
          have hout : retryGo env orig (attempt :: restA) current trace =
              (RetryResult.ret 1 orig, trace ++ evs ++ [REvent.regenerated attempt]) := by
            rw [retryGo, if_pos hcase, hfi]
            dsimp only
            rw [hr]
          rw [hout] at hmem
          simp only [List.mem_append, List.mem_singleton] at hmem
          rcases hmem with (hm | hm) | hm
          · exact hT a cs hm hlt
          · obtain ⟨c, b, heq⟩ := hevs _ hm
            simp at heq
          · simp at hm
        | some newCmds =>
          have hout : retryGo env orig (attempt :: restA) current trace =
              retryGo env orig restA newCmds (trace ++ evs ++ [REvent.regenerated attempt]) := by
            rw [retryGo, if_pos hcase, hfi]
            dsimp only
            rw [hr]
          rw [hout] at hmem
          refine ih newCmds _ ?_ a cs hmem hlt
          intro a' cs' hm' hlt'
          simp only [List.mem_append, List.mem_singleton] at hm'
          rcases hm' with (hm' | hm') | hm'
          · exact hT a' cs' hm' hlt'
          · obtain ⟨c, b, heq⟩ := hevs _ hm'
            simp at heq
          · simp at hm'
      | none =>
        have hval := findInvalid_none_valid env attempt current evs hfi
        cases hx : env.runExec attempt current with
        | ok code =>
          have hout : retryGo env orig (attempt :: restA) current trace =
              (RetryResult.ret code current, trace ++ evs ++ [REvent.executed attempt current]) := by
            rw [retryGo, if_pos hcase, hfi, hx]
          rw [hout] at hmem
          simp only [List.mem_append, List.mem_singleton] at hmem
          rcases hmem with (hm | hm) | hm
          · exact hT a cs hm hlt
          · obtain ⟨c, b, heq⟩ := hevs _ hm
            simp at heq
          · simp only [REvent.executed.injEq] at hm
            obtain ⟨rfl, rfl⟩ := hm
            exact hval
        | err msg =>
          cases hr : env.regenerate attempt msg with
          | none =>
            have hout : retryGo env orig (attempt :: restA) current trace =
                (RetryResult.raised msg, trace ++ evs ++
                  [REvent.executed attempt current, REvent.regenerated attempt]) := by
              rw [retryGo, if_pos hcase, hfi]
              dsimp only
              rw [hx]
              dsimp only
              rw [hr]
            rw [hout] at hmem
            simp only [List.mem_append, List.mem_cons, List.mem_singleton,
              List.not_mem_nil, or_false] at hmem
            rcases hmem with (hm | hm) | hm | hm
            · exact hT a cs hm hlt
            · obtain ⟨c, b, heq⟩ := hevs _ hm
              simp at heq
            · simp only [REvent.executed.injEq] at hm
              obtain ⟨rfl, rfl⟩ := hm
              exact hval
            · simp at hm
          | some newCmds =>
            have hout : retryGo env orig (attempt :: restA) current trace =
                retryGo env orig restA newCmds (trace ++ evs ++
                  [REvent.executed attempt current, REvent.regenerated attempt]) := by
              rw [retryGo, if_pos hcase, hfi]
              dsimp only
              rw [hx]
              dsimp only
              rw [hr]
            rw [hout] at hmem
            refine ih newCmds _ ?_ a cs hmem hlt
            intro a' cs' hm' hlt'
            simp only [List.mem_append, List.mem_cons, List.mem_singleton,
              List.not_mem_nil, or_false] at hm'
            rcases hm' with (hm' | hm') | hm' | hm'
            · exact hT a' cs' hm' hlt'
            · obtain ⟨c, b, heq⟩ := hevs _ hm'
              simp at heq
            · simp only [REvent.executed.injEq] at hm'
              obtain ⟨rfl, rfl⟩ := hm'
              exact hval
            · simp at hm'
    · have hsc := scanAll_events env attempt current
      cases hx : env.runExec attempt current with
      | ok code =>
        have hout : retryGo env orig (attempt :: restA) current trace =
            (RetryResult.ret code current,
             trace ++ scanAll env attempt current ++ [REvent.executed attempt current]) := by
          rw [retryGo, if_neg hcase, hx]
        rw [hout] at hmem
        simp only [List.mem_append, List.mem_singleton] at hmem
        rcases hmem with (hm | hm) | hm
        · exact hT a cs hm hlt
        · obtain ⟨c, b, heq⟩ := hsc _ hm
          simp at heq
        · simp only [REvent.executed.injEq] at hm
          obtain ⟨rfl, rfl⟩ := hm
          exact absurd hlt hcase
      | err msg =>
        have hout : retryGo env orig (attempt :: restA) current trace =
            (RetryResult.raised msg,
             trace ++ scanAll env attempt current ++ [REvent.executed attempt current]) := by
          rw [retryGo, if_neg hcase, hx]
        rw [hout] at hmem
        simp only [List.mem_append, List.mem_singleton] at hmem
        rcases hmem with (hm | hm) | hm
        · exact hT a cs hm hlt
        · obtain ⟨c, b, heq⟩ := hsc _ hm
          simp at heq
        · simp only [REvent.executed.injEq] at hm
          obtain ⟨rfl, rfl⟩ := hm
          exact absurd hlt hcase

theorem retryGo_countExec (env : RetryEnv) (orig : List (List String)) :
    ∀ (atts : List Nat) (current : List (List String)) (trace : List REvent),
      countExec (retryGo env orig atts current trace).2 ≤ countExec trace + atts.length := by
  intro atts
  induction atts with
  | nil =>
    intro current trace
    rw [retryGo]
    simp
  | cons attempt restA ih =>
    intro current trace
    by_cases hcase : attempt < MAX_RETRY_ATTEMPTS
    · rcases hfi : findInvalid env attempt current with ⟨evs, inv⟩
      have hcnt : countExec evs = 0 := by
        have h0 := findInvalid_countExec env attempt current
        rw [hfi] at h0
        exact h0
      cases inv with
      | some msg =>
        cases hr : env.regenerate attempt msg with
        | none =>
          have hout : retryGo env orig (attempt :: restA) current trace =
              (RetryResult.ret 1 orig, trace ++ evs ++ [REvent.regenerated attempt]) := by
            rw [retryGo, if_pos hcase, hfi]
            dsimp only
            rw [hr]
          rw [hout]
          simp only [countExec_append, hcnt, List.length_cons]
          have h1 : countExec [REvent.regenerated attempt] = 0 := by
            simp [countExec, List.filter, isExecEvent]
          omega
        | some newCmds =>
          have hout : retryGo env orig (attempt :: restA) current trace =
              retryGo env orig restA newCmds (trace ++ evs ++ [REvent.regenerated attempt]) := by
            rw [retryGo, if_pos hcase, hfi]
            dsimp only
            rw [hr]
          rw [hout]
          refine le_trans (ih newCmds _) ?_
          simp only [countExec_append, hcnt, List.length_cons]
          have h1 : countExec [REvent.regenerated attempt] = 0 := by
            simp [countExec, List.filter, isExecEvent]
          omega
      | none =>
        cases hx : env.runExec attempt current with
        | ok code =>
          have hout : retryGo env orig (attempt :: restA) current trace =
              (RetryResult.ret code current, trace ++ evs ++ [REvent.executed attempt current]) := by
            rw [retryGo, if_pos hcase, hfi, hx]
          rw [hout]
          simp only [countExec_append, hcnt, List.length_cons]
          have h1 : countExec [REvent.executed attempt current] = 1 := by
            simp [countExec, List.filter, isExecEvent]
          omega
        | err msg =>
          cases hr : env.regenerate attempt msg with
          | none =>
            have hout : retryGo env orig (attempt :: restA) current trace =
                (RetryResult.raised msg, trace ++ evs ++
                  [REvent.executed attempt current, REvent.regenerated attempt]) := by
              rw [retryGo, if_pos hcase, hfi]
              dsimp only
              rw [hx]
              dsimp only
              rw [hr]
            rw [hout]
            simp only [countExec_append, hcnt, List.length_cons]
            have h1 : countExec [REvent.executed attempt current, REvent.regenerated attempt] = 1 := by
              simp [countExec, List.filter, isExecEvent]
            omega
          | some newCmds =>
            have hout : retryGo env orig (attempt :: restA) current trace =
                retryGo env orig restA newCmds (trace ++ evs ++
                  [REvent.executed attempt current, REvent.regenerated attempt]) := by
              rw [retryGo, if_pos hcase, hfi]
              dsimp only
              rw [hx]
              dsimp only
              rw [hr]
            rw [hout]
            refine le_trans (ih newCmds _) ?_
            simp only [countExec_append, hcnt, List.length_cons]
            have h1 : countExec [REvent.executed attempt current, REvent.regenerated attempt] = 1 := by
              simp [countExec, List.filter, isExecEvent]
            omega
    · have hcnt : countExec (scanAll env attempt current) = 0 := scanAll_countExec env attempt current
      cases hx : env.runExec attempt current with
      | ok code =>
        have hout : retryGo env orig (attempt :: restA) current trace =
            (RetryResult.ret code current,
             trace ++ scanAll env attempt current ++ [REvent.executed attempt current]) := by
          rw [retryGo, if_neg hcase, hx]
        rw [hout]
        simp only [countExec_append, hcnt, List.length_cons]
        have h1 : countExec [REvent.executed attempt current] = 1 := by
          simp [countExec, List.filter, isExecEvent]
        omega
      | err msg =>
        have hout : retryGo env orig (attempt :: restA) current trace =
            (RetryResult.raised msg,
             trace ++ scanAll env attempt current ++ [REvent.executed attempt current]) := by
          rw [retryGo, if_neg hcase, hx]
        rw [hout]
        simp only [countExec_append, hcnt, List.length_cons]
        have h1 : countExec [REvent.executed attempt current] = 1 := by
          simp [countExec, List.filter, isExecEvent]
        omega

theorem retryGo_regen_lt (env : RetryEnv) (orig : List (List String)) :
    ∀ (atts : List Nat) (current : List (List String)) (trace : List REvent),
      (∀ a, REvent.regenerated a ∈ trace → a < MAX_RETRY_ATTEMPTS) →
      ∀ a, REvent.regenerated a ∈ (retryGo env orig atts current trace).2 →
        a < MAX_RETRY_ATTEMPTS := by
  intro atts
  induction atts with
  | nil =>
    intro current trace hT a hmem
    rw [retryGo] at hmem
    exact hT a hmem
  | cons attempt restA ih =>
    intro current trace hT a hmem
    by_cases hcase : attempt < MAX_RETRY_ATTEMPTS
    · rcases hfi : findInvalid env attempt current with ⟨evs, inv⟩
      have hevs := findInvalid_events env attempt current
      rw [hfi] at hevs
      cases inv with
      | some msg =>
        cases hr : env.regenerate attempt msg with
        | none =>
          have hout : retryGo env orig (attempt :: restA) current trace =
              (RetryResult.ret 1 orig, trace ++ evs ++ [REvent.regenerated attempt]) := by
            rw [retryGo, if_pos hcase, hfi]
            dsimp only
            rw [hr]
          rw [hout] at hmem
          simp only [List.mem_append, List.mem_singleton] at hmem
          rcases hmem with (hm | hm) | hm
          · exact hT a hm
          · obtain ⟨c, b, heq⟩ := hevs _ hm
            simp at heq
          · simp only [REvent.regenerated.injEq] at hm
            subst hm
            exact hcase
        | some newCmds =>
          have hout : retryGo env orig (attempt :: restA) current trace =
              retryGo env orig restA newCmds (trace ++ evs ++ [REvent.regenerated attempt]) := by
            rw [retryGo, if_pos hcase, hfi]
            dsimp only
            rw [hr]
          rw [hout] at hmem
          refine ih newCmds _ ?_ a hmem
          intro a' hm'
          simp only [List.mem_append, List.mem_singleton] at hm'
          rcases hm' with (hm' | hm') | hm'
          · exact hT a' hm'
          · obtain ⟨c, b, heq⟩ := hevs _ hm'
            simp at heq
          · simp only [REvent.regenerated.injEq] at hm'
            subst hm'
            exact hcase
      | none =>
        cases hx : env.runExec attempt current with
        | ok code =>
          have hout : retryGo env orig (attempt :: restA) current trace =
              (RetryResult.ret code current, trace ++ evs ++ [REvent.executed attempt current]) := by
            rw [retryGo, if_pos hcase, hfi, hx]
          rw [hout] at hmem
          simp only [List.mem_append, List.mem_singleton] at hmem
          rcases hmem with (hm | hm) | hm
          · exact hT a hm
          · obtain ⟨c, b, heq⟩ := hevs _ hm
            simp at heq
          · simp at hm
        | err msg =>
          cases hr : env.regenerate attempt msg with
          | none =>
            have hout : retryGo env orig (attempt :: restA) current trace =
                (RetryResult.raised msg, trace ++ evs ++
                  [REvent.executed attempt current, REvent.regenerated attempt]) := by
              rw [retryGo, if_pos hcase, hfi]
              dsimp only
              rw [hx]
              dsimp only
              rw [hr]
            rw [hout] at hmem
            simp only [List.mem_append, List.mem_cons, List.mem_singleton,
              List.not_mem_nil, or_false] at hmem
            rcases hmem with (hm | hm) | hm | hm
            · exact hT a hm
            · obtain ⟨c, b, heq⟩ := hevs _ hm
              simp at heq
            · simp at hm
            · simp only [REvent.regenerated.injEq] at hm
              subst hm
              exact hcase
          | some newCmds =>
            have hout : retryGo env orig (attempt :: restA) current trace =
                retryGo env orig restA newCmds (trace ++ evs ++
                  [REvent.executed attempt current, REvent.regenerated attempt]) := by
              rw [retryGo, if_pos hcase, hfi]
              dsimp only
              rw [hx]
              dsimp only
              rw [hr]
            rw [hout] at hmem
            refine ih newCmds _ ?_ a hmem
            intro a' hm'
            simp only [List.mem_append, List.mem_cons, List.mem_singleton,
              List.not_mem_nil, or_false] at hm'
            rcases hm' with (hm' | hm') | hm' | hm'
            · exact hT a' hm'
            · obtain ⟨c, b, heq⟩ := hevs _ hm'
              simp at heq
            · simp at hm'
            · simp only [REvent.regenerated.injEq] at hm'
              subst hm'
              exact hcase
    · have hsc := scanAll_events env attempt current
      cases hx : env.runExec attempt current with
      | ok code =>
        have hout : retryGo env orig (attempt :: restA) current trace =
            (RetryResult.ret code current,
             trace ++ scanAll env attempt current ++ [REvent.executed attempt current]) := by
          rw [retryGo, if_neg hcase, hx]
        rw [hout] at hmem
        simp only [List.mem_append, List.mem_singleton] at hmem
        rcases hmem with (hm | hm) | hm
        · exact hT a hm
        · obtain ⟨c, b, heq⟩ := hsc _ hm
          simp at heq
        · simp at hm
      | err msg =>
        have hout : retryGo env orig (attempt :: restA) current trace =
            (RetryResult.raised msg,
             trace ++ scanAll env attempt current ++ [REvent.executed attempt current]) := by
          rw [retryGo, if_neg hcase, hx]
        rw [hout] at hmem
        simp only [List.mem_append, List.mem_singleton] at hmem
        rcases hmem with (hm | hm) | hm
        · exact hT a hm
        · obtain ⟨c, b, heq⟩ := hsc _ hm
          simp at heq
        · simp at hm

theorem retryGo_attempt_range (env : RetryEnv) (orig : List (List String)) :
    ∀ (atts : List Nat) (current : List (List String)) (trace : List REvent),
      (∀ x ∈ atts, 1 ≤ x ∧ x ≤ MAX_RETRY_ATTEMPTS) →
      (∀ ev ∈ trace, 1 ≤ evAttempt ev ∧ evAttempt ev ≤ MAX_RETRY_ATTEMPTS) →
      ∀ ev ∈ (retryGo env orig atts current trace).2,
        1 ≤ evAttempt ev ∧ evAttempt ev ≤ MAX_RETRY_ATTEMPTS := by
  intro atts
  induction atts with
  | nil =>
    intro current trace _ hT ev hmem
    rw [retryGo] at hmem
    exact hT ev hmem
  | cons attempt restA ih =>
    intro current trace hA hT ev hmem
    have hattempt : 1 ≤ attempt ∧ attempt ≤ MAX_RETRY_ATTEMPTS :=
      hA attempt (List.mem_cons_self attempt restA)
    have hA' : ∀ x ∈ restA, 1 ≤ x ∧ x ≤ MAX_RETRY_ATTEMPTS :=
      fun x hx => hA x (List.mem_cons_of_mem attempt hx)
    have hstep : ∀ (evs : List REvent),
        (∀ e ∈ evs, ∃ c b, e = REvent.validated attempt c b) →
        ∀ tail : List REvent, (∀ e ∈ tail, evAttempt e = attempt) →
        ∀ e ∈ trace ++ evs ++ tail, 1 ≤ evAttempt e ∧ evAttempt e ≤ MAX_RETRY_ATTEMPTS := by
      intro evs hevs tail htail e he
      simp only [List.mem_append] at he
      rcases he with (he | he) | he
      · exact hT e he
      · obtain ⟨c, b, rfl⟩ := hevs e he
        simpa [evAttempt] using hattempt
      · rw [htail e he]
        exact hattempt
    by_cases hcase : attempt < MAX_RETRY_ATTEMPTS
    · rcases hfi : findInvalid env attempt current with ⟨evs, inv⟩
      have hevs := findInvalid_events env attempt current
      rw [hfi] at hevs
      cases inv with
      | some msg =>
        cases hr : env.regenerate attempt msg with
        | none =>
          have hout : retryGo env orig (attempt :: restA) current trace =
              (RetryResult.ret 1 orig, trace ++ evs ++ [REvent.regenerated attempt]) := by
            rw [retryGo, if_pos hcase, hfi]
            dsimp only
            rw [hr]
          rw [hout] at hmem
          exact hstep evs hevs _ (by intro e he; simp only [List.mem_singleton] at he; subst he; rfl)
            ev hmem
        | some newCmds =>
          have hout : retryGo env orig (attempt :: restA) current trace =
              retryGo env orig restA newCmds (trace ++ evs ++ [REvent.regenerated attempt]) := by
            rw [retryGo, if_pos hcase, hfi]
            dsimp only
            rw [hr]
          rw [hout] at hmem
          refine ih newCmds _ hA' ?_ ev hmem
          exact hstep evs hevs _ (by intro e he; simp only [List.mem_singleton] at he; subst he; rfl)
      | none =>
        cases hx : env.runExec attempt current with
        | ok code =>
          have hout : retryGo env orig (attempt :: restA) current trace =
              (RetryResult.ret code current, trace ++ evs ++ [REvent.executed attempt current]) := by
            rw [retryGo, if_pos hcase, hfi, hx]
          rw [hout] at hmem
          exact hstep evs hevs _ (by intro e he; simp only [List.mem_singleton] at he; subst he; rfl)
            ev hmem
        | err msg =>
          cases hr : env.regenerate attempt msg with
          | none =>
            have hout : retryGo env orig (attempt :: restA) current trace =
                (RetryResult.raised msg, trace ++ evs ++
                  [REvent.executed attempt current, REvent.regenerated attempt]) := by
              rw [retryGo, if_pos hcase, hfi]
              dsimp only
              rw [hx]
              dsimp only
              rw [hr]
            rw [hout] at hmem
            refine hstep evs hevs _ ?_ ev hmem
            intro e he
            simp only [List.mem_cons, List.mem_singleton, List.not_mem_nil, or_false] at he
            rcases he with rfl | rfl <;> rfl
          | some newCmds =>
            have hout : retryGo env orig (attempt :: restA) current trace =
                retryGo env orig restA newCmds (trace ++ evs ++
                  [REvent.executed attempt current, REvent.regenerated attempt]) := by
              rw [retryGo, if_pos hcase, hfi]
              dsimp only
              rw [hx]
              dsimp only
              rw [hr]
            rw [hout] at hmem
            refine ih newCmds _ hA' ?_ ev hmem
            refine hstep evs hevs _ ?_
            intro e he
            simp only [List.mem_cons, List.mem_singleton, List.not_mem_nil, or_false] at he
            rcases he with rfl | rfl <;> rfl
    · have hsc := scanAll_events env attempt current
      cases hx : env.runExec attempt current with
      | ok code =>
        have hout : retryGo env orig (attempt :: restA) current trace =
            (RetryResult.ret code current,
             trace ++ scanAll env attempt current ++ [REvent.executed attempt current]) := by
          rw [retryGo, if_neg hcase, hx]
        rw [hout] at hmem
        exact hstep _ hsc _ (by intro e he; simp only [List.mem_singleton] at he; subst he; rfl)
          ev hmem
      | err msg =>
        have hout : retryGo env orig (attempt :: restA) current trace =
            (RetryResult.raised msg,
             trace ++ scanAll env attempt current ++ [REvent.executed attempt current]) := by
          rw [retryGo, if_neg hcase, hx]
        rw [hout] at hmem
        exact hstep _ hsc _ (by intro e he; simp only [List.mem_singleton] at he; subst he; rfl)
          ev hmem

theorem retryGo_err_raises (env : RetryEnv) (orig : List (List String)) :
    ∀ (atts : List Nat) (current : List (List String)) (trace : List REvent)
      (a : Nat) (cs : List (List String)) (msg : String),
      REvent.executed a cs ∈ (retryGo env orig atts current trace).2 →
      env.runExec a cs = ExecOutcome.err msg →
      (a = MAX_RETRY_ATTEMPTS ∨ env.regenerate a msg = none) →
      REvent.executed a cs ∈ trace ∨
        (retryGo env orig atts current trace).1 = RetryResult.raised msg := by
  intro atts
  induction atts with
  | nil =>
    intro current trace a cs msg hmem _ _
    rw [retryGo] at hmem ⊢
    exact Or.inl hmem
  | cons attempt restA ih =>
    intro current trace a cs msg hmem hx0 hside
    by_cases hcase : attempt < MAX_RETRY_ATTEMPTS
    · rcases hfi : findInvalid env attempt current with ⟨evs, inv⟩
      have hevs := findInvalid_events env attempt current
      rw [hfi] at hevs
      cases inv with
      | some m =>
        cases hr : env.regenerate attempt m with
        | none =>
          have hout : retryGo env orig (attempt :: restA) current trace =
              (RetryResult.ret 1 orig, trace ++ evs ++ [REvent.regenerated attempt]) := by
            rw [retryGo, if_pos hcase, hfi]
            dsimp only
            rw [hr]
          rw [hout] at hmem ⊢
          simp only [List.mem_append, List.mem_singleton] at hmem
          rcases hmem with (hm | hm) | hm
          · exact Or.inl hm
          · obtain ⟨c, b, heq⟩ := hevs _ hm
            simp at heq
          · simp at hm
        | some newCmds =>
          have hout : retryGo env orig (attempt :: restA) current trace =
              retryGo env orig restA newCmds (trace ++ evs ++ [REvent.regenerated attempt]) := by
            rw [retryGo, if_pos hcase, hfi]
            dsimp only
            rw [hr]
          rw [hout] at hmem ⊢
          rcases ih newCmds _ a cs msg hmem hx0 hside with hin | hraised
          · simp only [List.mem_append, List.mem_singleton] at hin
            rcases hin with (hm | hm) | hm
            · exact Or.inl hm
            · obtain ⟨c, b, heq⟩ := hevs _ hm
              simp at heq
            · simp at hm
          · exact Or.inr hraised
      | none =>
        cases hx : env.runExec attempt current with
        | ok code =>
          have hout : retryGo env orig (attempt :: restA) current trace =
              (RetryResult.ret code current, trace ++ evs ++ [REvent.executed attempt current]) := by
            rw [retryGo, if_pos hcase, hfi, hx]
          rw [hout] at hmem ⊢
          simp only [List.mem_append, List.mem_singleton] at hmem
          rcases hmem with (hm | hm) | hm
          · exact Or.inl hm
          · obtain ⟨c, b, heq⟩ := hevs _ hm
            simp at heq
          · simp only [REvent.executed.injEq] at hm
            obtain ⟨rfl, rfl⟩ := hm
            rw [hx0] at hx
            cases hx
        | err m =>
          cases hr : env.regenerate attempt m with
          | none =>
            have hout : retryGo env orig (attempt :: restA) current trace =
                (RetryResult.raised m, trace ++ evs ++
                  [REvent.executed attempt current, REvent.regenerated attempt]) := by
              rw [retryGo, if_pos hcase, hfi]
              dsimp only
              rw [hx]
              dsimp only
              rw [hr]
            rw [hout] at hmem ⊢
            simp only [List.mem_append, List.mem_cons, List.mem_singleton,
              List.not_mem_nil, or_false] at hmem
            rcases hmem with (hm | hm) | hm | hm
            · exact Or.inl hm
            · obtain ⟨c, b, heq⟩ := hevs _ hm
              simp at heq
            · simp only [REvent.executed.injEq] at hm
              obtain ⟨rfl, rfl⟩ := hm
              rw [hx0] at hx
              cases hx
              exact Or.inr rfl
            · simp at hm
          | some newCmds =>
            have hout : retryGo env orig (attempt :: restA) current trace =
                retryGo env orig restA newCmds (trace ++ evs ++
                  [REvent.executed attempt current, REvent.regenerated attempt]) := by
              rw [retryGo, if_pos hcase, hfi]
              dsimp only
              rw [hx]
              dsimp only
              rw [hr]
            rw [hout] at hmem ⊢
            rcases ih newCmds _ a cs msg hmem hx0 hside with hin | hraised
            · simp only [List.mem_append, List.mem_cons, List.mem_singleton,
                List.not_mem_nil, or_false] at hin
              rcases hin with (hm | hm) | hm | hm
              · exact Or.inl hm
              · obtain ⟨c, b, heq⟩ := hevs _ hm
                simp at heq
              · simp only [REvent.executed.injEq] at hm
                obtain ⟨rfl, rfl⟩ := hm
                rw [hx0] at hx
                cases hx
                rcases hside with hmax | hnone
                · exact absurd hmax (Nat.ne_of_lt hcase)
                · rw [hnone] at hr
                  cases hr
              · simp at hm
            · exact Or.inr hraised
    · have hsc := scanAll_events env attempt current
      cases hx : env.runExec attempt current with
      | ok code =>
        have hout : retryGo env orig (attempt :: restA) current trace =
            (RetryResult.ret code current,
             trace ++ scanAll env attempt current ++ [REvent.executed attempt current]) := by
          rw [retryGo, if_neg hcase, hx]
        rw [hout] at hmem ⊢
        simp only [List.mem_append, List.mem_singleton] at hmem
        rcases hmem with (hm | hm) | hm
        · exact Or.inl hm
        · obtain ⟨c, b, heq⟩ := hsc _ hm
          simp at heq
        · simp only [REvent.executed.injEq] at hm
          obtain ⟨rfl, rfl⟩ := hm
          rw [hx0] at hx
          cases hx
      | err m =>
        have hout : retryGo env orig (attempt :: restA) current trace =
            (RetryResult.raised m,
             trace ++ scanAll env attempt current ++ [REvent.executed attempt current]) := by
          rw [retryGo, if_neg hcase, hx]
        rw [hout] at hmem ⊢
        simp only [List.mem_append, List.mem_singleton] at hmem
        rcases hmem with (hm | hm) | hm
        · exact Or.inl hm
        · obtain ⟨c, b, heq⟩ := hsc _ hm
          simp at heq
        · simp only [REvent.executed.injEq] at hm
          obtain ⟨rfl, rfl⟩ := hm
          rw [hx0] at hx
          cases hx
          exact Or.inr rfl

/-! ### Claim C4 -/

/-- An oracle under which every validation fails, regeneration always
succeeds with the fixed plan `[["ffmpeg"]]`, and execution succeeds. -/
def alwaysInvalidEnv : RetryEnv where
  validate := fun _ _ => (false, "bad")
  regenerate := fun _ _ => some [["ffmpeg"]]
  runExec := fun _ _ => ExecOutcome.ok 0

/-- Counterexample to C4 as stated: on the final attempt the executor runs a
batch whose command failed validation in that same attempt.  (The
regenerate-and-break block of the validation loop is guarded by
`attempt < MAX_RETRY_ATTEMPTS`, so on attempt 3 a validation failure only
logs a warning, the loop finishes without `break`, and the `for/else` clause
invokes the executor.) -/
theorem c4_counterexample_final_attempt :
    REvent.executed 3 [["ffmpeg"]] ∈ (execute_with_retry alwaysInvalidEnv [["ffmpeg"]]).2 ∧
    ["ffmpeg"] ∈ [["ffmpeg"]] ∧
    (alwaysInvalidEnv.validate 3 ["ffmpeg"]).1 = false := by
  decide

/-- C4 (amended): within any attempt strictly below `MAX_RETRY_ATTEMPTS`, the
executor function is invoked only if every command of the current plan passed
`validate_ffmpeg_command` in that attempt.  On the final attempt this is not
guaranteed (see the counterexample). -/
theorem c4_executed_implies_validated (env : RetryEnv) (cmds : List (List String))
    (a : Nat) (cs : List (List String))
    (hmem : REvent.executed a cs ∈ (execute_with_retry env cmds).2)
    (hlt : a < MAX_RETRY_ATTEMPTS) :
    ∀ c ∈ cs, (env.validate a c).1 = true := by
  refine retryGo_exec_validated env cmds (List.range' 1 MAX_RETRY_ATTEMPTS) cmds [] ?_ a cs hmem hlt
  intro a' cs' h
  simp at h

/-- An oracle under which everything validates and execution succeeds. -/
def allValidEnv : RetryEnv where
  validate := fun _ _ => (true, "")
  regenerate := fun _ _ => none
  runExec := fun _ _ => ExecOutcome.ok 0

/-- Witness for the amended C4 at a concrete run. -/
theorem c4_executed_implies_validated_witness :
    (allValidEnv.validate 1 ["ffmpeg", "-version"]).1 = true :=
  c4_executed_implies_validated allValidEnv [["ffmpeg", "-version"]] 1 [["ffmpeg", "-version"]]
    (by decide) (by decide) ["ffmpeg", "-version"] (by decide)

/-! ### Claim C5 -/

/-- C5: `execute_with_retry` performs at most `MAX_RETRY_ATTEMPTS = 3`
attempts (at most that many executor invocations, and every recorded event
belongs to an attempt numbered between 1 and the bound); regeneration happens
only when the attempt counter is strictly below the bound; and an `ExecError`
on the final attempt — or one after which regeneration yields nothing —
propagates to the caller as the result. -/
theorem c5_retry_bound_and_propagation :
    MAX_RETRY_ATTEMPTS = 3 ∧
    (∀ (env : RetryEnv) (cmds : List (List String)),
      countExec (execute_with_retry env cmds).2 ≤ MAX_RETRY_ATTEMPTS) ∧
    (∀ (env : RetryEnv) (cmds : List (List String)) (ev : REvent),
      ev ∈ (execute_with_retry env cmds).2 →
      1 ≤ evAttempt ev ∧ evAttempt ev ≤ MAX_RETRY_ATTEMPTS) ∧
    (∀ (env : RetryEnv) (cmds : List (List String)) (a : Nat),
      REvent.regenerated a ∈ (execute_with_retry env cmds).2 → a < MAX_RETRY_ATTEMPTS) ∧
    (∀ (env : RetryEnv) (cmds : List (List String)) (a : Nat)
        (cs : List (List String)) (msg : String),
      REvent.executed a cs ∈ (execute_with_retry env cmds).2 →
      env.runExec a cs = ExecOutcome.err msg →
      (a = MAX_RETRY_ATTEMPTS ∨ env.regenerate a msg = none) →
      (execute_with_retry env cmds).1 = RetryResult.raised msg) := by
  refine ⟨rfl, ?_, ?_, ?_, ?_⟩
  · intro env cmds
    have h := retryGo_countExec env cmds (List.range' 1 MAX_RETRY_ATTEMPTS) cmds []
    have h0 : countExec ([] : List REvent) = 0 := rfl
    have hl : (List.range' 1 MAX_RETRY_ATTEMPTS).length = MAX_RETRY_ATTEMPTS := by decide
    rw [execute_with_retry]
    omega
  · intro env cmds ev hmem
    refine retryGo_attempt_range env cmds (List.range' 1 MAX_RETRY_ATTEMPTS) cmds []
      (by decide) ?_ ev hmem
    intro e he
    simp at he
  · intro env cmds a hmem
    refine retryGo_regen_lt env cmds (List.range' 1 MAX_RETRY_ATTEMPTS) cmds [] ?_ a hmem
    intro a' h
    simp at h
  · intro env cmds a cs msg hmem hx hside
    rcases retryGo_err_raises env cmds (List.range' 1 MAX_RETRY_ATTEMPTS) cmds []
      a cs msg hmem hx hside with hin | hraised
    · simp at hin
    · exact hraised

/-- An oracle under which everything validates, execution always fails with
`boom`, and regeneration always yields the plan `[["ffprobe"]]`. -/
def alwaysFailEnv : RetryEnv where
  validate := fun _ _ => (true, "")
  regenerate := fun _ _ => some [["ffprobe"]]
  runExec := fun _ _ => ExecOutcome.err "boom"

/-- Witness for C5 at a concrete run: three failing attempts, then the last
`ExecError` propagates. -/
theorem c5_retry_bound_and_propagation_witness :
    (1 ≤ evAttempt (REvent.regenerated 1) ∧
      evAttempt (REvent.regenerated 1) ≤ MAX_RETRY_ATTEMPTS) ∧
    (1 < MAX_RETRY_ATTEMPTS) ∧
    (execute_with_retry alwaysFailEnv [["ffmpeg"]]).1 = RetryResult.raised "boom" :=
  ⟨c5_retry_bound_and_propagation.2.2.1 alwaysFailEnv [["ffmpeg"]]
      (REvent.regenerated 1) (by decide),
   c5_retry_bound_and_propagation.2.2.2.1 alwaysFailEnv [["ffmpeg"]] 1 (by decide),
   c5_retry_bound_and_propagation.2.2.2.2 alwaysFailEnv [["ffmpeg"]] 3 [["ffprobe"]] "boom"
      (by decide) rfl (Or.inl rfl)⟩

/-! ### JSON values (`core/json_repair.py`)

Python dicts parsed from JSON are modelled as association lists with
first-match lookup; `repair_json_for_schema` mutates a `data.copy()`, which
the model renders functionally.  JSON numbers are modelled as `Int`: no claim
depends on numeric values. -/

/-- Embedded JSON value. -/
inductive JVal where
  | null
  | bool (b : Bool)
  | num (n : Int)
  | str (s : String)
  | arr (xs : List JVal)
  | obj (fields : List (String × JVal))

/-- A parsed JSON object (a Python dict). -/
def Obj : Type := List (String × JVal)

/-- Model of `data.get(key)` / `data[key]`. -/
def getField : Obj → String → Option JVal
  | [], _ => none
  | (k, v) :: rest, key => if k == key then some v else getField rest key

/-- Model of `data[key] = value`: replace the first binding, else append. -/
def setField : Obj → String → JVal → Obj
  | [], key, value => [(key, value)]
  | (k, v) :: rest, key, value =>
    if k == key then (key, value) :: rest else (k, v) :: setField rest key value

/-- Python truthiness of a JSON value (`not repaired["action"]`,
`if item and ...`). -/
def truthy : JVal → Bool
  | JVal.null => false
  | JVal.bool b => b
  | JVal.num n => n != 0
  | JVal.str s => s != ""
  | JVal.arr xs => !xs.isEmpty
  | JVal.obj fs => !fs.isEmpty

/-- Truthiness of `data.get(field)` (absent reads as `None`, falsy). -/
def getTruthy (o : Obj) (f : String) : Bool :=
  match getField o f with
  | some v => truthy v
  | none => false

/-- Model of Python `str()` as consumed by the blank-element filter
`[item for item in ... if item and str(item).strip()]`: the identity on
strings; on every other JSON value a textual repr whose exact spelling is
irrelevant to the claims — only whether its strip is empty matters, and in
Python the repr of `None`, booleans, numbers, lists and dicts never strips
to the empty string. -/
def pyStr : JVal → String
  | JVal.null => "None"
  | JVal.bool true => "True"
  | JVal.bool false => "False"
  | JVal.num n => toString n
  | JVal.str s => s
  | JVal.arr _ => "[...]"
  | JVal.obj _ => "\x7b...\x7d"

/-- Model of Python `str.strip()` (ASCII whitespace precision). -/
def pyStrip (s : String) : String :=
  String.mk (((s.data.dropWhile isSpaceChar).reverse.dropWhile isSpaceChar).reverse)

/-- Model of Python `str.lower()` (ASCII precision). -/
def lowerStr (s : String) : String :=
  String.mk (s.data.map Char.toLower)

/-- Substring test on character lists (Python `needle in hay`). -/
def isSubList (needle : List Char) : List Char → Bool
  | [] => needle.isPrefixOf []
  | c :: t => needle.isPrefixOf (c :: t) || isSubList needle t

/-- Model of Python `needle in hay` for strings. -/
def containsStr (hay needle : String) : Bool :=
  isSubList needle.data hay.data

/-- The workspace snapshot shape consumed by the repair pipeline (spec
section 6): ordered path lists per category. -/
structure Workspace where
  videos : List String
  audios : List String
  images : List String
  subtitleFiles : List String

/-! ### Schema repair (`JSONRepair.repair_json_for_schema`, lines 141-198)

The path-cleaning helper `_clean_path_string` is threaded through as an
arbitrary function `clean : String → String`: the claims checked here hold
for every cleaner, so its five regex substitutions and workspace matching
are not re-modelled (the source guarantees it returns some string and never
raises).  The four helpers imported from `core/action_inference.py` are
modelled from the spec, as that module is not among the provided sources. -/

/-- One field update of `sanitize_path_values` (lines 73-79): when the field
holds a truthy string, replace it with the cleaned value when that differs. -/
def sanitizeField (clean : String → String) (o : Obj) (f : String) : Obj :=
  match getField o f with
  | some (JVal.str s) =>
    if s != "" then
      (if clean s != s then setField o f (JVal.str (clean s)) else o)
    else o
  | _ => o

/-- `JSONRepair.sanitize_path_values` (lines 62-92): clean the three scalar
path fields, then clean each string entry of an `inputs` list. -/
def sanitize_path_values (clean : String → String) (o : Obj) : Obj :=
  let o3 := sanitizeField clean (sanitizeField clean (sanitizeField clean o "output")
    "subtitle_path") "overlay_path"
  match getField o3 "inputs" with
  | some (JVal.arr xs) =>
    setField o3 "inputs" (JVal.arr (xs.map (fun x =>
      match x with
      | JVal.str s => JVal.str (clean s)
      | v => v)))
  | _ => o3

/-- The closed action enumeration of the spec (section 3, StructuredIntent). -/
def ACTION_ENUM : List String :=
  ["convert", "compress", "extract_audio", "trim", "segment", "thumbnail", "frames",
   "extract_frames", "burn_subtitles", "extract_subtitles", "remove_audio", "overlay",
   "format_convert", "merge"]

/-- Modelled from the spec: the closed keyword-to-action mapping of
`infer_action_from_query` (`core/action_inference.py` is not among the
provided sources); spec section 4.2 step 3 prescribes a closed mapping of
keyword sets to actions, tried in a fixed priority order. -/
def ACTION_KEYWORDS : List (String × String) :=
  [("compress", "compress"), ("extract audio", "extract_audio"), ("trim", "trim"),
   ("thumbnail", "thumbnail"), ("subtitle", "burn_subtitles"), ("overlay", "overlay"),
   ("merge", "merge"), ("frame", "extract_frames")]

/-- Modelled from the spec: `infer_action_from_query` (missing source file
`core/action_inference.py`).  Spec section 4.2 step 3: infer the action by
keyword matching against the request, first match in a fixed priority order
wins, absolute fallback is the generic "convert" action. -/
def infer_action_from_query (q : String) : String :=
  match ACTION_KEYWORDS.find? (fun kw => containsStr (lowerStr q) kw.1) with
  | some kw => kw.2
  | none => "convert"

/-- Modelled from the spec: `infer_inputs_from_query` (missing source file
`core/action_inference.py`).  Spec section 4.2 step 5: set `inputs` to the
workspace files mentioned in the request (case-insensitive match), else to
the most recent file of the expected category as a best-effort default; it
touches only the `inputs` field. -/
def infer_inputs_from_query (o : Obj) (q : String) (ws : Workspace) : Obj :=
  let mentioned := (ws.videos ++ ws.audios ++ ws.images).filter
    (fun f => containsStr (lowerStr q) (lowerStr f))
  match mentioned with
  | m :: ms => setField o "inputs" (JVal.arr ((m :: ms).map JVal.str))
  | [] =>
    match ws.videos with
    | v :: _ => setField o "inputs" (JVal.arr [JVal.str v])
    | [] => o

/-- Modelled from the spec: `infer_format_and_codec` (missing source file
`core/action_inference.py`).  Spec section 4.2 step 6: infer a target format
from keywords of the request when not already set; it touches only the
scalar `format` field. -/
def infer_format_and_codec (o : Obj) (q : String) : Obj :=
  match getField o "format" with
  | some _ => o
  | none =>
    if containsStr (lowerStr q) "gif" then setField o "format" (JVal.str "gif")
    else if containsStr (lowerStr q) "mp3" then setField o "format" (JVal.str "mp3")
    else o

/-- Modelled from the spec: `fix_action_validation_issues` (missing source
file `core/action_inference.py`).  Spec section 4.2 step 7: a final pass
correcting action-specific parameter inconsistencies (an `extract_audio`
action with no target container defaults to a standard audio container); it
touches only action-specific scalar parameters, here the `format` field. -/
def fix_action_validation_issues (o : Obj) (_q : String) : Obj :=
  match getField o "action", getField o "format" with
  | some (JVal.str a), none =>
    if a == "extract_audio" then setField o "format" (JVal.str "mp3") else o
  | _, _ => o

/-- The list-normalization step of `repair_json_for_schema` (lines 160-165):
absent or `None` becomes the empty list, a non-list becomes a singleton when
truthy and the empty list otherwise. -/
def normalizeListField (o : Obj) (f : String) : Obj :=
  match getField o f with
  | none => setField o f (JVal.arr [])
  | some JVal.null => setField o f (JVal.arr [])
  | some (JVal.arr _) => o
  | some v => setField o f (JVal.arr (if truthy v then [v] else []))

/-- The element filter of the blank-cleanup step (line 170):
`item and str(item).strip()`. -/
def keptElem (x : JVal) : Bool :=
  truthy x && pyStrip (pyStr x) != ""

/-- The blank-cleanup step of `repair_json_for_schema` (lines 167-170). -/
def stripBlanks (o : Obj) (f : String) : Obj :=
  match getField o f with
  | some (JVal.arr xs) => setField o f (JVal.arr (xs.filter keptElem))
  | _ => o

/-- `actions_needing_inputs` (lines 174-188). -/
def ACTIONS_NEEDING_INPUTS : List String :=
  ["convert", "extract_audio", "compress", "format_convert", "trim", "segment",
   "thumbnail", "frames", "extract_frames", "burn_subtitles", "extract_subtitles",
   "remove_audio", "overlay"]

/-- The guard `repaired.get("action") in actions_needing_inputs` (line 189):
only a string value can compare equal to a member of the list. -/
def actionNeedsInputs (o : Obj) : Bool :=
  match getField o "action" with
  | some (JVal.str a) => ACTIONS_NEEDING_INPUTS.contains a
  | _ => false

/-- The tail of `JSONRepair.repair_json_for_schema` after the action
default (lines 159-198): normalize the three list fields, drop blank
elements from `filters` and `extra_flags`, infer inputs when empty and the
action needs them, then run the format and action-specific inference
passes. -/
def repairTail (r2 : Obj) (q : String) (ws : Workspace) : Obj :=
  let r3 := List.foldl normalizeListField r2 ["inputs", "filters", "extra_flags"]
  let r4 := List.foldl stripBlanks r3 ["filters", "extra_flags"]
  let r5 := if !(getTruthy r4 "inputs") && actionNeedsInputs r4
    then infer_inputs_from_query r4 q ws else r4
  let r6 := infer_format_and_codec r5 q
  fix_action_validation_issues r6 q

/-- The head of `repair_json_for_schema`: sanitize the path values (lines
151-152), default a missing or falsy `action` from the query (lines
155-157), then run the list-field steps above. -/
def repairObj (clean : String → String) (d : Obj) (q : String) (ws : Workspace) : Obj :=
  let r1 := sanitize_path_values clean d
  repairTail
    (if !(getTruthy r1 "action")
     then setField r1 "action" (JVal.str (infer_action_from_query q)) else r1) q ws

/-- The `if data is None: data = \x7b\x7d` default of the entry point
(lines 146-147): run the body over the defaulted dict. -/
def repair_json_for_schema (clean : String → String) (data : Option Obj) (q : String)
    (ws : Workspace) : Obj :=
  repairObj clean
    (match data with
     | none => []
     | some o => o) q ws

/-! ### Helper lemmas about the repair pipeline -/

theorem getField_setField_self (o : Obj) (k : String) (v : JVal) :
    getField (setField o k v) k = some v := by
  induction o with
  | nil => simp [setField, getField]
  | cons p rest ih =>
    rcases p with ⟨k', v'⟩
    by_cases h : k' = k
    · simp [setField, getField, h]
    · simp [setField, getField, h, ih]

theorem getField_setField_ne (o : Obj) (k k' : String) (v : JVal) (h : k' ≠ k) :
    getField (setField o k v) k' = getField o k' := by
  induction o with
  | nil => simp [setField, getField, Ne.symm h]
  | cons p rest ih =>
    rcases p with ⟨k0, v0⟩
    by_cases h0 : k0 = k
    · subst h0
      simp [setField, getField, Ne.symm h]
    · simp only [setField, beq_iff_eq, h0, if_false]
      by_cases h1 : k0 = k'
      · simp [getField, h1]
      · simp [getField, h1, ih]

theorem sanitizeField_pres (clean : String → String) (o : Obj) (f k : String) (h : k ≠ f) :
    getField (sanitizeField clean o f) k = getField o k := by
  rw [sanitizeField]
  split
  · split
    · split
      · exact getField_setField_ne o f k _ h
      · rfl
    · rfl
  · rfl

theorem sanitize_pres (clean : String → String) (o : Obj) (k : String)
    (h1 : k ≠ "output") (h2 : k ≠ "subtitle_path") (h3 : k ≠ "overlay_path")
    (h4 : k ≠ "inputs") :
    getField (sanitize_path_values clean o) k = getField o k := by
  rw [sanitize_path_values]
  have hchain : getField (sanitizeField clean (sanitizeField clean
      (sanitizeField clean o "output") "subtitle_path") "overlay_path") k = getField o k := by
    rw [sanitizeField_pres clean _ _ k h3, sanitizeField_pres clean _ _ k h2,
      sanitizeField_pres clean _ _ k h1]
  split
  · rw [getField_setField_ne _ _ k _ h4]
    exact hchain
  · exact hchain

theorem normalize_pres (o : Obj) (f k : String) (h : k ≠ f) :
    getField (normalizeListField o f) k = getField o k := by
  rw [normalizeListField]
  split <;> first
    | rfl
    | exact getField_setField_ne o f k _ h

theorem normalize_isArr (o : Obj) (f : String) :
    ∃ xs, getField (normalizeListField o f) f = some (JVal.arr xs) := by
  rw [normalizeListField]
  split
  · exact ⟨[], getField_setField_self o f _⟩
  · exact ⟨[], getField_setField_self o f _⟩
  · next xs heq => exact ⟨xs, heq⟩
  · next v _ _ _ => exact ⟨if truthy v then [v] else [], getField_setField_self o f _⟩

theorem stripBlanks_pres (o : Obj) (f k : String) (h : k ≠ f) :
    getField (stripBlanks o f) k = getField o k := by
  rw [stripBlanks]
  split
  · exact getField_setField_ne o f k _ h
  · rfl

theorem stripBlanks_self (o : Obj) (f : String) (xs : List JVal)
    (h : getField o f = some (JVal.arr xs)) :
    getField (stripBlanks o f) f = some (JVal.arr (xs.filter keptElem)) := by
  rw [stripBlanks, h]
  exact getField_setField_self o f _

theorem inferInputs_pres (o : Obj) (q : String) (ws : Workspace) (k : String)
    (h : k ≠ "inputs") :
    getField (infer_inputs_from_query o q ws) k = getField o k := by
  rw [infer_inputs_from_query]
  split
  · exact getField_setField_ne o _ k _ h
  · split
    · exact getField_setField_ne o _ k _ h
    · rfl

theorem inferInputs_arr (o : Obj) (q : String) (ws : Workspace) (xs0 : List JVal)
    (h : getField o "inputs" = some (JVal.arr xs0)) :
    ∃ xs, getField (infer_inputs_from_query o q ws) "inputs" = some (JVal.arr xs) := by
  rw [infer_inputs_from_query]
  split
  · exact ⟨_, getField_setField_self o _ _⟩
  · split
    · exact ⟨_, getField_setField_self o _ _⟩
    · exact ⟨xs0, h⟩

theorem inferFormat_pres (o : Obj) (q : String) (k : String) (h : k ≠ "format") :
    getField (infer_format_and_codec o q) k = getField o k := by
  rw [infer_format_and_codec]
  split
  · rfl
  · split
    · exact getField_setField_ne o _ k _ h
    · split
      · exact getField_setField_ne o _ k _ h
      · rfl

theorem fixAction_pres (o : Obj) (q : String) (k : String) (h : k ≠ "format") :
    getField (fix_action_validation_issues o q) k = getField o k := by
  rw [fix_action_validation_issues]
  split
  · split
    · exact getField_setField_ne o _ k _ h
    · rfl
  · rfl

theorem infer_action_sound (q : String) :
    infer_action_from_query q ∈ ACTION_ENUM ∧ infer_action_from_query q ≠ "" := by
  rw [infer_action_from_query]
  cases hf : ACTION_KEYWORDS.find? (fun kw => containsStr (lowerStr q) kw.1) with
  | none =>
    refine ⟨?_, by decide⟩
    simp [ACTION_ENUM]
  | some kw =>
    have hmem := List.mem_of_find?_eq_some hf
    have hall : ∀ p ∈ ACTION_KEYWORDS, p.2 ∈ ACTION_ENUM ∧ p.2 ≠ "" := by decide
    exact hall kw hmem

theorem getTruthy_congr (o o' : Obj) (f : String) (h : getField o f = getField o' f) :
    getTruthy o f = getTruthy o' f := by
  rw [getTruthy, getTruthy, h]

theorem getTruthy_some (o : Obj) (f : String) (h : getTruthy o f = true) :
    ∃ v, getField o f = some v ∧ truthy v = true := by
  cases hg : getField o f with
  | none =>
    rw [getTruthy, hg] at h
    simp at h
  | some v =>
    rw [getTruthy, hg] at h
    exact ⟨v, rfl, h⟩

theorem repairTail_action (q : String) (ws : Workspace) (r2 : Obj) (v : JVal)
    (h : getField r2 "action" = some v) :
    getField (repairTail r2 q ws) "action" = some v := by
  rw [repairTail]
  simp only [List.foldl_cons, List.foldl_nil]
  rw [fixAction_pres _ _ _ (show ("action" : String) ≠ "format" by decide),
    inferFormat_pres _ _ _ (show ("action" : String) ≠ "format" by decide)]
  have htail : getField (stripBlanks (stripBlanks (normalizeListField (normalizeListField
      (normalizeListField r2 "inputs") "filters") "extra_flags") "filters") "extra_flags")
      "action" = some v := by
    rw [stripBlanks_pres _ _ _ (show ("action" : String) ≠ "extra_flags" by decide),
      stripBlanks_pres _ _ _ (show ("action" : String) ≠ "filters" by decide),
      normalize_pres _ _ _ (show ("action" : String) ≠ "extra_flags" by decide),
      normalize_pres _ _ _ (show ("action" : String) ≠ "filters" by decide),
      normalize_pres _ _ _ (show ("action" : String) ≠ "inputs" by decide)]
    exact h
  split
  · rw [inferInputs_pres _ q ws "action" (by decide)]
    exact htail
  · exact htail

theorem repairTail_fields (q : String) (ws : Workspace) (r2 : Obj) :
    (∃ xs, getField (repairTail r2 q ws) "inputs" = some (JVal.arr xs)) ∧
    (∃ xs, getField (repairTail r2 q ws) "filters" = some (JVal.arr xs) ∧
      ∀ x ∈ xs, truthy x = true ∧ pyStrip (pyStr x) ≠ "") ∧
    (∃ xs, getField (repairTail r2 q ws) "extra_flags" = some (JVal.arr xs) ∧
      ∀ x ∈ xs, truthy x = true ∧ pyStrip (pyStr x) ≠ "") := by
  rw [repairTail]
  simp only [List.foldl_cons, List.foldl_nil]
  set r3 := normalizeListField (normalizeListField (normalizeListField r2 "inputs") "filters")
    "extra_flags" with hr3
  set r4 := stripBlanks (stripBlanks r3 "filters") "extra_flags" with hr4
  set r5 := (if !(getTruthy r4 "inputs") && actionNeedsInputs r4
    then infer_inputs_from_query r4 q ws else r4) with hr5
  set R := fix_action_validation_issues (infer_format_and_codec r5 q) q with hR
  -- the inputs field
  obtain ⟨xsI, hI⟩ := normalize_isArr r2 "inputs"
  have h3i : getField r3 "inputs" = some (JVal.arr xsI) := by
    rw [hr3,
      normalize_pres _ _ _ (show ("inputs" : String) ≠ "extra_flags" by decide),
      normalize_pres _ _ _ (show ("inputs" : String) ≠ "filters" by decide)]
    exact hI
  have h4i : getField r4 "inputs" = some (JVal.arr xsI) := by
    rw [hr4,
      stripBlanks_pres _ _ _ (show ("inputs" : String) ≠ "extra_flags" by decide),
      stripBlanks_pres _ _ _ (show ("inputs" : String) ≠ "filters" by decide)]
    exact h3i
  have h5i : ∃ xs, getField r5 "inputs" = some (JVal.arr xs) := by
    rw [hr5]
    split
    · exact inferInputs_arr r4 q ws xsI h4i
    · exact ⟨xsI, h4i⟩
  have hRi : getField R "inputs" = getField r5 "inputs" := by
    rw [hR,
      fixAction_pres _ _ _ (show ("inputs" : String) ≠ "format" by decide),
      inferFormat_pres _ _ _ (show ("inputs" : String) ≠ "format" by decide)]
  -- the filters field
  obtain ⟨xsF, hF⟩ := normalize_isArr (normalizeListField r2 "inputs") "filters"
  have h3f : getField r3 "filters" = some (JVal.arr xsF) := by
    rw [hr3, normalize_pres _ _ _ (show ("filters" : String) ≠ "extra_flags" by decide)]
    exact hF
  have h4f : getField r4 "filters" = some (JVal.arr (xsF.filter keptElem)) := by
    rw [hr4, stripBlanks_pres _ _ _ (show ("filters" : String) ≠ "extra_flags" by decide)]
    exact stripBlanks_self r3 "filters" xsF h3f
  have h5f : getField r5 "filters" = getField r4 "filters" := by
    rw [hr5]
    split
    · exact inferInputs_pres r4 q ws "filters" (by decide)
    · rfl
  have hRf : getField R "filters" = getField r5 "filters" := by
    rw [hR,
      fixAction_pres _ _ _ (show ("filters" : String) ≠ "format" by decide),
      inferFormat_pres _ _ _ (show ("filters" : String) ≠ "format" by decide)]
  -- the extra_flags field
  obtain ⟨xsE, h3e⟩ := normalize_isArr
    (normalizeListField (normalizeListField r2 "inputs") "filters") "extra_flags"
  rw [← hr3] at h3e
  have hmid : getField (stripBlanks r3 "filters") "extra_flags" = some (JVal.arr xsE) := by
    rw [stripBlanks_pres _ _ _ (show ("extra_flags" : String) ≠ "filters" by decide)]
    exact h3e
  have h4e : getField r4 "extra_flags" = some (JVal.arr (xsE.filter keptElem)) := by
    rw [hr4]
    exact stripBlanks_self _ "extra_flags" xsE hmid
  have h5e : getField r5 "extra_flags" = getField r4 "extra_flags" := by
    rw [hr5]
    split
    · exact inferInputs_pres r4 q ws "extra_flags" (by decide)
    · rfl
  have hRe : getField R "extra_flags" = getField r5 "extra_flags" := by
    rw [hR,
      fixAction_pres _ _ _ (show ("extra_flags" : String) ≠ "format" by decide),
      inferFormat_pres _ _ _ (show ("extra_flags" : String) ≠ "format" by decide)]
  have hkept : ∀ xs : List JVal, ∀ x ∈ xs.filter keptElem,
      truthy x = true ∧ pyStrip (pyStr x) ≠ "" := by
    intro xs x hx
    have hk := (List.mem_filter.mp hx).2
    rw [keptElem, Bool.and_eq_true] at hk
    refine ⟨hk.1, ?_⟩
    intro heq
    have hk2 := hk.2
    rw [heq] at hk2
    exact absurd hk2 (by decide)
  refine ⟨?_, ?_, ?_⟩
  · obtain ⟨xs5, h5x⟩ := h5i
    exact ⟨xs5, by rw [hRi, h5x]⟩
  · exact ⟨xsF.filter keptElem, by rw [hRf, h5f, h4f], hkept xsF⟩
  · exact ⟨xsE.filter keptElem, by rw [hRe, h5e, h4e], hkept xsE⟩

theorem repairObj_schema (clean : String → String) (d : Obj) (q : String) (ws : Workspace) :
    (∃ v, getField (repairObj clean d q ws) "action" = some v ∧ truthy v = true) ∧
    (getTruthy d "action" = false →
      ∃ a, getField (repairObj clean d q ws) "action" = some (JVal.str a) ∧
        a ≠ "" ∧ a ∈ ACTION_ENUM) ∧
    (∃ xs, getField (repairObj clean d q ws) "inputs" = some (JVal.arr xs)) ∧
    (∃ xs, getField (repairObj clean d q ws) "filters" = some (JVal.arr xs) ∧
      ∀ x ∈ xs, truthy x = true ∧ pyStrip (pyStr x) ≠ "") ∧
    (∃ xs, getField (repairObj clean d q ws) "extra_flags" = some (JVal.arr xs) ∧
      ∀ x ∈ xs, truthy x = true ∧ pyStrip (pyStr x) ≠ "") := by
  have hobj : repairObj clean d q ws = repairTail
      (if !(getTruthy (sanitize_path_values clean d) "action")
       then setField (sanitize_path_values clean d) "action"
         (JVal.str (infer_action_from_query q))
       else sanitize_path_values clean d) q ws := rfl
  rw [hobj]
  refine ⟨?_, ?_, (repairTail_fields q ws _).1, (repairTail_fields q ws _).2.1,
    (repairTail_fields q ws _).2.2⟩
  · cases hc : getTruthy (sanitize_path_values clean d) "action" with
    | false =>
      refine ⟨JVal.str (infer_action_from_query q), ?_, ?_⟩
      · simp only [Bool.not_false, eq_self_iff_true, if_true]
        exact repairTail_action q ws _ _ (getField_setField_self _ _ _)
      · simp only [truthy, bne_iff_ne]
        exact (infer_action_sound q).2
    | true =>
      obtain ⟨v, hv, htv⟩ := getTruthy_some _ _ hc
      refine ⟨v, ?_, htv⟩
      simp only [Bool.not_true, Bool.false_eq_true, if_false]
      exact repairTail_action q ws _ v hv
  · intro hact
    have hg1 : getField (sanitize_path_values clean d) "action" = getField d "action" :=
      sanitize_pres clean d "action" (by decide) (by decide) (by decide) (by decide)
    have hc : getTruthy (sanitize_path_values clean d) "action" = false :=
      (getTruthy_congr _ _ _ hg1).trans hact
    refine ⟨infer_action_from_query q, ?_, (infer_action_sound q).2, (infer_action_sound q).1⟩
    rw [hc]
    simp only [Bool.not_false, eq_self_iff_true, if_true]
    exact repairTail_action q ws _ _ (getField_setField_self _ _ _)

/-! ### Claim C6 -/

/-- The payloads on which the repair infers the action: `None`, or an object
whose `action` field is absent, null or otherwise falsy. -/
def actionAbsentOrFalsy (data : Option Obj) : Bool :=
  match data with
  | none => true
  | some o => !(getTruthy o "action")

/-- A concrete malformed payload: null `inputs`, scalar `filters`. -/
def samplePayload : Option Obj :=
  some [("inputs", JVal.null), ("filters", JVal.str "scale=320:-1")]

/-- A concrete workspace snapshot. -/
def sampleWs : Workspace :=
  ⟨["a.mp4"], [], [], []⟩

/-- A payload inside the malformed-input class of C6 (its `inputs` is a null
array field) that also carries a present, truthy `action` outside the closed
enumeration. -/
def bananaPayload : Option Obj :=
  some [("action", JVal.str "banana"), ("inputs", JVal.null)]

/-- Counterexample to C6 as stated: on a payload with a null array field and
a present truthy but invalid `action`, `repair_json_for_schema` keeps the
unvalidated action verbatim (the default at line 155 fires only when the
action is absent or falsy, and no later step coerces it), so the result's
`action` is not a member of the closed action enumeration. -/
theorem c6_counterexample_action_kept :
    getField (repair_json_for_schema id bananaPayload "convert it" sampleWs) "action" =
      some (JVal.str "banana") ∧
    "banana" ∉ ACTION_ENUM :=
  ⟨rfl, by decide⟩

/-- C6 (amended): for every payload — `None` included, all fields arbitrary —
and every path cleaner, the repaired object's `inputs`, `filters` and
`extra_flags` are lists (never null or absent) with falsy or whitespace-only
elements removed from `filters` and `extra_flags`, and the embedding is
total, so no exception is raised; the `action` field is always present and
truthy, and when the incoming `action` is absent or falsy it is inferred as
a non-empty member of the closed action enumeration.  A present truthy
`action` is kept verbatim, even outside the enumeration (see the
counterexample). -/
theorem c6_repair_schema_invariants (clean : String → String) (data : Option Obj)
    (q : String) (ws : Workspace) :
    (∃ v, getField (repair_json_for_schema clean data q ws) "action" = some v ∧
      truthy v = true) ∧
    (actionAbsentOrFalsy data = true →
      ∃ a, getField (repair_json_for_schema clean data q ws) "action" = some (JVal.str a) ∧
        a ≠ "" ∧ a ∈ ACTION_ENUM) ∧
    (∃ xs, getField (repair_json_for_schema clean data q ws) "inputs" = some (JVal.arr xs)) ∧
    (∃ xs, getField (repair_json_for_schema clean data q ws) "filters" = some (JVal.arr xs) ∧
      ∀ x ∈ xs, truthy x = true ∧ pyStrip (pyStr x) ≠ "") ∧
    (∃ xs, getField (repair_json_for_schema clean data q ws) "extra_flags" =
        some (JVal.arr xs) ∧
      ∀ x ∈ xs, truthy x = true ∧ pyStrip (pyStr x) ≠ "") := by
  have h := repairObj_schema clean
    (match data with
     | none => []
     | some o => o) q ws
  rw [repair_json_for_schema.eq_def]
  refine ⟨h.1, ?_, h.2.2.1, h.2.2.2.1, h.2.2.2.2⟩
  intro hact
  apply h.2.1
  cases data with
  | none => rfl
  | some o =>
    rw [actionAbsentOrFalsy] at hact
    simpa using hact

/-- Witness for the amended C6 at a concrete malformed payload, discharging
the absent-action hypothesis of the enumeration conjunct. -/
theorem c6_repair_schema_invariants_witness :
    (∃ a, getField (repair_json_for_schema id samplePayload "please compress the clip"
        sampleWs) "action" = some (JVal.str a) ∧ a ≠ "" ∧ a ∈ ACTION_ENUM) ∧
    (∃ xs, getField (repair_json_for_schema id samplePayload "please compress the clip"
        sampleWs) "inputs" = some (JVal.arr xs)) ∧
    (∃ xs, getField (repair_json_for_schema id samplePayload "please compress the clip"
        sampleWs) "filters" = some (JVal.arr xs) ∧
      ∀ x ∈ xs, truthy x = true ∧ pyStrip (pyStr x) ≠ "") ∧
    (∃ xs, getField (repair_json_for_schema id samplePayload "please compress the clip"
        sampleWs) "extra_flags" = some (JVal.arr xs) ∧
      ∀ x ∈ xs, truthy x = true ∧ pyStrip (pyStr x) ≠ "") :=
  ⟨(c6_repair_schema_invariants id samplePayload "please compress the clip" sampleWs).2.1
      (by decide),
   (c6_repair_schema_invariants id samplePayload "please compress the clip" sampleWs).2.2.1,
   (c6_repair_schema_invariants id samplePayload "please compress the clip" sampleWs).2.2.2.1,
   (c6_repair_schema_invariants id samplePayload "please compress the clip" sampleWs).2.2.2.2⟩

/-! ### Text extraction (`JSONRepair.extract_json_from_text`, lines 22-60) -/

/-- Consume a literal prefix, case-insensitively when `ci` is set, returning
the remainder after it. -/
def consumeLit : List Char → Bool → List Char → Option (List Char)
  | [], _, cs => some cs
  | _ :: _, _, [] => none
  | n :: ns, ci, c :: cs =>
    if (if ci then c.toLower == n.toLower else c == n) then consumeLit ns ci cs else none

/-- Remainder after the first position where `k` consumes a prefix. -/
def dropAfterFirst (k : List Char → Option (List Char)) : List Char → Option (List Char)
  | [] => k []
  | c :: t =>
    match k (c :: t) with
    | some rest => some rest
    | none => dropAfterFirst k t

/-- The characters strictly before the first occurrence of `needle`
(`none` when `needle` does not occur). -/
def takeUntil (needle : List Char) : List Char → Option (List Char)
  | [] => if needle.isPrefixOf [] then some [] else none
  | c :: t =>
    if needle.isPrefixOf (c :: t) then some []
    else
      match takeUntil needle t with
      | some b => some (c :: b)
      | none => none

/-- A markdown code fence: three backticks. -/
def fenceChars : List Char :=
  ['\x60', '\x60', '\x60']

/-- Model of one markdown-extraction regex of lines 39-44, searched with
`re.search(..., re.IGNORECASE)`: the pattern is the opener (three backticks,
optionally followed by `json`), then `\s*([\s\S]*?)\s*` and a closing fence.
The regex matches at the leftmost opener that is followed by a closing
fence; because the group is lazy and the surrounding `\s*` greedy, the
captured group — stripped, as the caller does at line 46 — equals the
stripped text between the opener and the first following fence. -/
def mdCandidate (opener : List Char) (ci : Bool) (t : String) : Option String :=
  match dropAfterFirst (consumeLit opener ci) t.data with
  | none => none
  | some post =>
    match takeUntil fenceChars post with
    | some body => some (pyStrip (String.mk body))
    | none => none

/-- The first markdown pattern: a fence followed by `json`, case-insensitive. -/
def mdCandidate1 (t : String) : Option String :=
  mdCandidate (fenceChars ++ ['j', 's', 'o', 'n']) true t

/-- The second markdown pattern: a bare fence. -/
def mdCandidate2 (t : String) : Option String :=
  mdCandidate fenceChars false t

/-- Model of `extracted.startswith("\x7b")` (line 47). -/
def startsWithBrace (e : String) : Bool :=
  match e.data with
  | c :: _ => c == '\x7b'
  | [] => false

/-- The markdown-pattern loop of lines 43-49: try the `json` fence first,
then the bare fence; an extraction wins only when its stripped group starts
with an opening brace. -/
def mdTry (t : String) : Option String :=
  match mdCandidate1 t with
  | some e =>
    if startsWithBrace e then some e
    else
      match mdCandidate2 t with
      | some e2 => if startsWithBrace e2 then some e2 else none
      | none => none
  | none =>
    match mdCandidate2 t with
    | some e2 => if startsWithBrace e2 then some e2 else none
    | none => none

/-- The brace-pair strategy of lines 51-58: the substring from the first
opening brace through the last closing brace, provided the latter comes
after the former (`text.find`/`text.rfind` with `last_brace > first_brace`). -/
def braceExtract (cs : List Char) : Option (List Char) :=
  match cs.dropWhile (fun c => c != '\x7b') with
  | [] => none
  | b :: rest =>
    if hasChar '\x7d' rest then
      some (b :: (rest.reverse.dropWhile (fun c => c != '\x7d')).reverse)
    else none

/-- Model of Python `str.startswith`. -/
def pyStartsWith (s pre : String) : Bool :=
  pre.data.isPrefixOf s.data

/-- The fallback of lines 51-60: brace-pair extraction, else the (stripped)
text itself. -/
def braceFallback (t : String) : String :=
  match braceExtract t.data with
  | some sub => String.mk sub
  | none => t

/-- `JSONRepair.extract_json_from_text` (lines 22-60): empty text is
returned as is; the text is stripped; a stripped text that already starts
with an opening and ends with a closing brace is returned; otherwise the
markdown patterns are tried in order, then the brace-pair strategy, and
failing everything the (stripped) text is returned. -/
def extract_json_from_text (text : String) : String :=
  if text == "" then text
  else
    let t := pyStrip text
    if pyStartsWith t "\x7b" && pyEndsWith t "\x7d" then t
    else
      match mdTry t with
      | some e => e
      | none => braceFallback t

/-- Both markdown strategies fail on a candidate when there is no match or
the extracted group does not start with an opening brace. -/
def mdFails (o : Option String) : Bool :=
  match o with
  | none => true
  | some e => !(startsWithBrace e)

/-! ### Helper lemmas about text extraction -/

theorem mdTry_none (t : String) (h1 : mdFails (mdCandidate1 t) = true)
    (h2 : mdFails (mdCandidate2 t) = true) : mdTry t = none := by
  cases hc1 : mdCandidate1 t with
  | none =>
    cases hc2 : mdCandidate2 t with
    | none => simp [mdTry, hc1, hc2]
    | some e2 =>
      have hb2 : startsWithBrace e2 = false := by
        cases hb : startsWithBrace e2
        · rfl
        · rw [hc2, mdFails, hb] at h2
          exact absurd h2 (by decide)
      simp [mdTry, hc1, hc2, hb2]
  | some e =>
    have hb1 : startsWithBrace e = false := by
      cases hb : startsWithBrace e
      · rfl
      · rw [hc1, mdFails, hb] at h1
        exact absurd h1 (by decide)
    cases hc2 : mdCandidate2 t with
    | none => simp [mdTry, hc1, hc2, hb1]
    | some e2 =>
      have hb2 : startsWithBrace e2 = false := by
        cases hb : startsWithBrace e2
        · rfl
        · rw [hc2, mdFails, hb] at h2
          exact absurd h2 (by decide)
      simp [mdTry, hc1, hc2, hb1, hb2]

theorem braceExtract_of_wrapped (t : String) (h1 : pyStartsWith t "\x7b" = true)
    (h2 : pyEndsWith t "\x7d" = true) : ∃ z, braceExtract t.data = some z := by
  obtain ⟨u, hu⟩ : ∃ u, t.data = '\x7b' :: u := by
    have hp : ['\x7b'] <+: t.data := List.isPrefixOf_iff_prefix.mp h1
    obtain ⟨w, hw⟩ := hp
    exact ⟨w, by simpa using hw.symm⟩
  obtain ⟨w, hw⟩ : ∃ w, t.data = w ++ ['\x7d'] := by
    have hs : ['\x7d'] <:+ t.data := List.isSuffixOf_iff_suffix.mp h2
    obtain ⟨w, hweq⟩ := hs
    exact ⟨w, hweq.symm⟩
  have hcu : hasChar '\x7d' u = true := by
    cases w with
    | nil =>
      rw [hu] at hw
      simp at hw
    | cons wc w' =>
      rw [hu] at hw
      simp only [List.cons_append, List.cons.injEq] at hw
      rw [hw.2, hasChar_append]
      simp [hasChar]
  rw [braceExtract, hu]
  have hdrop : List.dropWhile (fun c => c != '\x7b') ('\x7b' :: u) = '\x7b' :: u := by
    rw [List.dropWhile_cons]
    simp
  rw [hdrop]
  simp only [hcu, if_true]
  exact ⟨_, rfl⟩

/-! ### Claim C7 -/

/-- Counterexample to C7 as stated: on the input consisting of `x`
surrounded by spaces both extraction strategies fail, yet the function
returns the stripped text `x`, not the raw input unchanged (the source
strips the text at line 32 and returns the stripped variable at line 60). -/
theorem c7_counterexample_strips :
    mdFails (mdCandidate1 (pyStrip " x ")) = true ∧
    mdFails (mdCandidate2 (pyStrip " x ")) = true ∧
    braceExtract (pyStrip " x ").data = none ∧
    extract_json_from_text " x " ≠ " x " := by
  decide

/-- C7 (amended): for every input on which both extraction strategies fail
(no markdown code block whose stripped body starts with an opening brace,
and no brace pair with the last closing brace after the first opening
brace), `extract_json_from_text` returns the input text stripped of leading
and trailing whitespace — hence unchanged exactly when the input has no
surrounding whitespace. -/
theorem c7_extract_returns_stripped (text : String)
    (h1 : mdFails (mdCandidate1 (pyStrip text)) = true)
    (h2 : mdFails (mdCandidate2 (pyStrip text)) = true)
    (h3 : braceExtract (pyStrip text).data = none) :
    extract_json_from_text text = pyStrip text := by
  by_cases he : text = ""
  · subst he
    rfl
  · rw [extract_json_from_text]
    simp only [beq_iff_eq, he, if_false]
    have hcond : (pyStartsWith (pyStrip text) "\x7b" &&
        pyEndsWith (pyStrip text) "\x7d") = false := by
      cases hc : pyStartsWith (pyStrip text) "\x7b" && pyEndsWith (pyStrip text) "\x7d"
      · rfl
      · exfalso
        rw [Bool.and_eq_true] at hc
        obtain ⟨z, hz⟩ := braceExtract_of_wrapped _ hc.1 hc.2
        rw [h3] at hz
        cases hz
    rw [hcond]
    simp only [Bool.false_eq_true, if_false]
    rw [mdTry_none _ h1 h2]
    rw [braceFallback, h3]

/-- Witness for the amended C7 at a concrete input. -/
theorem c7_extract_returns_stripped_witness :
    extract_json_from_text "no json here" = pyStrip "no json here" :=
  c7_extract_returns_stripped "no json here" (by decide) (by decide) (by decide)

/-! ### Probe metadata consumption (`analysis/ffprobe_analyzer.py`)

The subprocess and JSON-decoding layers of `_ffprobe_duration` are effectful
and their failures are caught (`TimeoutExpired`, `JSONDecodeError`,
`CalledProcessError`, `OSError` at lines 68-79).  The value-consumption core
at lines 64-66 — `dur = data.get("format", an empty dict).get("duration");
return float(dur) if dur is not None else None` — is pure and modelled
below; a `ValueError` or `TypeError` raised by `float` there is caught by
none of the except clauses. -/

/-- Consume one digit then any run of digits with single interior
underscores (the CPython numeric-literal grammar accepted by `float`). -/
def eatDigitsRest : List Char → List Char
  | '_' :: c :: cs => if c.isDigit then eatDigitsRest cs else '_' :: c :: cs
  | c :: cs => if c.isDigit then eatDigitsRest cs else c :: cs
  | [] => []

/-- Require at least one digit, then consume the digit group. -/
def eatDigits1 : List Char → Option (List Char)
  | c :: cs => if c.isDigit then some (eatDigitsRest cs) else none
  | [] => none

/-- Consume an optional sign. -/
def eatSign : List Char → List Char
  | '+' :: cs => cs
  | '-' :: cs => cs
  | cs => cs

/-- Consume the mantissa of a float literal: digits with an optional
fraction, or a fraction alone. -/
def mantissaThen (cs : List Char) : Option (List Char) :=
  match eatDigits1 cs with
  | some rest =>
    (match rest with
     | '.' :: rest2 =>
       (match eatDigits1 rest2 with
        | some rest3 => some rest3
        | none => some rest2)
     | _ => some rest)
  | none =>
    match cs with
    | '.' :: rest2 =>
      (match eatDigits1 rest2 with
       | some rest3 => some rest3
       | none => none)
    | _ => none

/-- Accept an optional exponent part ending the literal. -/
def expPart : List Char → Bool
  | [] => true
  | c :: cs =>
    if c == 'e' then
      (match eatDigits1 (eatSign cs) with
       | some rest => rest.isEmpty
       | none => false)
    else false

/-- Model of the string grammar accepted by Python `float()`: optional
surrounding whitespace, optional sign, underscore-grouped digits with
optional fraction and exponent, or `inf`/`infinity`/`nan`
(case-insensitive). -/
def pyFloatLit (s : String) : Bool :=
  let body := eatSign ((pyStrip s).data.map Char.toLower)
  (body == ['i', 'n', 'f'] || body == ['i', 'n', 'f', 'i', 'n', 'i', 't', 'y'] ||
    body == ['n', 'a', 'n']) ||
  (match mantissaThen body with
   | some rest => expPart rest
   | none => false)

/-- Outcome of the value-consumption core of `_ffprobe_duration`: a `None`
return, a successful `float(dur)` return (the converted value is kept as the
original JSON value — its numeric identity is irrelevant to the claims), or
an uncaught exception of the named kind. -/
inductive DurOutcome where
  | noneDur
  | someDur (v : JVal)
  | exn (kind : String)

/-- Lines 64-66 of `_ffprobe_duration` over the parsed probe JSON object:
`data.get("format", an empty dict)` must be a dict or `.get` raises
`AttributeError`; a missing or `None` duration returns `None`; `float` of a
non-numeric string raises `ValueError` and of a list or dict raises
`TypeError` — all three escape the except clauses of lines 68-79. -/
def ffprobe_duration_core (data : Obj) : DurOutcome :=
  match (getField data "format").getD (JVal.obj []) with
  | JVal.obj fs =>
    (match getField fs "duration" with
     | none => DurOutcome.noneDur
     | some JVal.null => DurOutcome.noneDur
     | some (JVal.str s) =>
       if pyFloatLit s then DurOutcome.someDur (JVal.str s)
       else DurOutcome.exn "ValueError"
     | some (JVal.num n) => DurOutcome.someDur (JVal.num n)
     | some (JVal.bool b) => DurOutcome.someDur (JVal.bool b)
     | some (JVal.arr _) => DurOutcome.exn "TypeError"
     | some (JVal.obj _) => DurOutcome.exn "TypeError")
  | _ => DurOutcome.exn "AttributeError"

/-! ### Claim C8 -/

/-- C8 is a code bug: the absent-duration half of the claim holds (second
and third conjuncts), but a present, non-numeric duration string such as
`N/A` makes `float(dur)` raise a `ValueError` that no except clause of
`_ffprobe_duration` catches — the function raises instead of returning
`None`, contradicting its own docstring ("Duration in seconds, or None if
extraction fails") and the spec.  The last conjunct shows the numeric case
succeeding. -/
theorem c8_nonnumeric_duration_raises :
    ffprobe_duration_core [("format", JVal.obj [("duration", JVal.str "N/A")])] =
      DurOutcome.exn "ValueError" ∧
    ffprobe_duration_core [("format", JVal.obj [])] = DurOutcome.noneDur ∧
    ffprobe_duration_core [] = DurOutcome.noneDur ∧
    ffprobe_duration_core [("format", JVal.obj [("duration", JVal.str "12.5")])] =
      DurOutcome.someDur (JVal.str "12.5") :=
  ⟨rfl, rfl, rfl, rfl⟩

/-! ### CLI exit codes (`main.py`) -/

/-- The exception kinds `main` distinguishes.  `mediaLLMError` stands for a
`MediaLLMError` that is none of the six specific kinds; `genericException`
for any other non-interrupt exception. -/
inductive ExcKind where
  | keyboardInterrupt
  | securityError
  | validationError
  | configError
  | translationError
  | constructionError
  | execError
  | mediaLLMError
  | osError
  | genericException
deriving DecidableEq

/-- Modelled from the spec: the exception class hierarchy of
`utils/exceptions.py` (not among the provided sources).  Spec section 7: the
six specific error kinds are structured MediaLLM exceptions under a common
base, and every kind except the user interrupt is an ordinary `Exception`. -/
def isInstanceOf (k cls : ExcKind) : Bool :=
  k == cls ||
  (cls == ExcKind.mediaLLMError &&
    (k == ExcKind.securityError || k == ExcKind.validationError ||
     k == ExcKind.configError || k == ExcKind.translationError ||
     k == ExcKind.constructionError || k == ExcKind.execError)) ||
  (cls == ExcKind.genericException && !(k == ExcKind.keyboardInterrupt))

/-- The ordered `except` clauses of `main` (main.py lines 31-74) with each
handler's `sys.exit` code. -/
def mainHandlers : List (ExcKind × Int) :=
  [(ExcKind.keyboardInterrupt, 130), (ExcKind.securityError, 2),
   (ExcKind.validationError, 3), (ExcKind.configError, 4),
   (ExcKind.translationError, 5), (ExcKind.constructionError, 6),
   (ExcKind.execError, 7), (ExcKind.mediaLLMError, 1),
   (ExcKind.osError, 1), (ExcKind.genericException, 1)]

/-- Python exception dispatch: the first `except` clause whose class the
raised exception is an instance of handles it. -/
def dispatchExc (k : ExcKind) : Option Int :=
  (mainHandlers.find? (fun h => isInstanceOf k h.1)).map Prod.snd

/-- `main` (main.py lines 22-74): a normal return of the terminal app ends
the process with code 0; a raised exception exits with its handler's code
(`none` would mean an unhandled exception — the theorem shows there is
none). -/
def main_exit (outcome : Option ExcKind) : Option Int :=
  match outcome with
  | none => some 0
  | some k => dispatchExc k

/-! ### Claim C9 -/

/-- C9: the CLI entry point maps each error kind to its fixed process exit
code: security 2, validation 3, configuration 4, translation 5,
construction 6, execution 7, user interrupt 130, and any other MediaLLM
error, OS error or unexpected exception 1; a normal run exits 0. -/
theorem c9_exit_code_mapping :
    main_exit none = some 0 ∧
    main_exit (some ExcKind.securityError) = some 2 ∧
    main_exit (some ExcKind.validationError) = some 3 ∧
    main_exit (some ExcKind.configError) = some 4 ∧
    main_exit (some ExcKind.translationError) = some 5 ∧
    main_exit (some ExcKind.constructionError) = some 6 ∧
    main_exit (some ExcKind.execError) = some 7 ∧
    main_exit (some ExcKind.keyboardInterrupt) = some 130 ∧
    main_exit (some ExcKind.mediaLLMError) = some 1 ∧
    main_exit (some ExcKind.osError) = some 1 ∧
    main_exit (some ExcKind.genericException) = some 1 := by
  decide

/-! ### Overwrite protection (`command_executor.py`) -/

/-- `CommandExecutor.check_overwrite_protection` (lines 73-76): the body is
a bare `return True`. -/
def check_overwrite_protection (_commands : List (List String))
    (_assume_yes : Bool) : Bool :=
  true

/-- `CommandExecutor.extract_output_path` (lines 66-71). -/
def extract_output_path (cmd : List String) : Option String :=
  if cmd.length < 2 then none else cmd.getLast?

/-- `CommandExecutor.detect_overwrites` (lines 78-81), with `Path.exists`
supplied as an oracle for the filesystem. -/
def detect_overwrites (pathExists : String → Bool)
    (commands : List (List String)) : Bool :=
  commands.any (fun cmd =>
    match extract_output_path cmd with
    | some p => pathExists p
    | none => false)

/-- The two ways through the overwrite guard of `_execute_commands`. -/
inductive ExecBranch where
  | cancelledFileConflicts
  | proceeded
deriving DecidableEq

/-- The guard at the top of `_execute_commands` (lines 199-203): when
`check_overwrite_protection` returns `False` the batch is cancelled with the
file-conflicts message, otherwise execution proceeds. -/
def execute_commands_branch (commands : List (List String))
    (assume_yes : Bool) : ExecBranch :=
  if check_overwrite_protection commands assume_yes then ExecBranch.proceeded
  else ExecBranch.cancelledFileConflicts

/-! ### Claim C10 -/

/-- C10: `check_overwrite_protection` is the constant `True` function, so
`_execute_commands` never takes its cancelled-due-to-file-conflicts branch,
for every command list and every `assume_yes` — even though
`detect_overwrites` can report that overwrites will occur (third conjunct:
a command whose output path exists). -/
theorem c10_overwrite_protection_constant :
    (∀ (commands : List (List String)) (assumeYes : Bool),
      check_overwrite_protection commands assumeYes = true) ∧
    (∀ (commands : List (List String)) (assumeYes : Bool),
      execute_commands_branch commands assumeYes = ExecBranch.proceeded) ∧
    detect_overwrites (fun _ => true) [["ffmpeg", "-i", "in.mp4", "out.mp4"]] = true :=
  ⟨fun _ _ => rfl, fun _ _ => rfl, rfl⟩
